import Mathlib

/-!
# custom-encoder: the encoding pipeline of `compressAndEncodeFiles`

A shallow embedding of `main.go`.  Go strings and byte slices are lists of
natural numbers below 256 (`Bytes`).  The pure library routines the program
calls (`encoding/base64`, `encoding/json` on a `map[string]string`,
`path/filepath`, the framing of `compress/zlib`, `hash/adler32`) are written
out after their Go implementation; the file system is an explicit value; the
deflate compressor inside the zlib writer is a parameter of the model.
Diagnostics printed with `fmt.Printf` do not influence the returned value and
are left out.
-/

namespace CustomEncoder

/-- A Go byte slice, or a Go string seen as its bytes. -/
abbrev Bytes := List Nat

/-- Every element is a byte value. -/
abbrev IsBytes (x : Bytes) : Prop := ∀ b ∈ x, b < 256

/-- The bytes of a string literal (UTF-8), used to write examples. -/
def str (s : String) : Bytes := s.toUTF8.data.toList.map UInt8.toNat

/-! ## encoding/base64, `StdEncoding` -/

/-- The standard alphabet of RFC 4648 (`encodeStd`). -/
def encodeStd : Bytes :=
  [65, 66, 67, 68, 69, 70, 71, 72, 73, 74, 75, 76, 77, 78, 79, 80, 81, 82, 83, 84, 85, 86, 87, 88,
   89, 90, 97, 98, 99, 100, 101, 102, 103, 104, 105, 106, 107, 108, 109, 110, 111, 112, 113, 114,
   115, 116, 117, 118, 119, 120, 121, 122, 48, 49, 50, 51, 52, 53, 54, 55, 56, 57, 43, 47]

/-- The padding character `=` (`StdPadding`). -/
def padChar : Nat := 61

/-- Lookup `enc.encode[i]`. -/
def encChar (i : Nat) : Nat := encodeStd.getD i 0

/-- `base64.StdEncoding.EncodeToString`: full 3-byte groups give 4 characters, a
remainder of 1 or 2 bytes gives 2 or 3 characters and `=` padding. -/
def stdEncode : Bytes → Bytes
  | [] => []
  | [a] =>
      let val := a <<< 16
      [encChar (val >>> 18 &&& 0x3F), encChar (val >>> 12 &&& 0x3F), padChar, padChar]
  | [a, b] =>
      let val := a <<< 16 ||| b <<< 8
      [encChar (val >>> 18 &&& 0x3F), encChar (val >>> 12 &&& 0x3F),
       encChar (val >>> 6 &&& 0x3F), padChar]
  | a :: b :: c :: rest =>
      let val := a <<< 16 ||| b <<< 8 ||| c
      encChar (val >>> 18 &&& 0x3F) :: encChar (val >>> 12 &&& 0x3F) ::
        encChar (val >>> 6 &&& 0x3F) :: encChar (val &&& 0x3F) :: stdEncode rest

/-- Position of a character in the standard alphabet, if it is one. -/
def decChar (c : Nat) : Option Nat :=
  if 65 ≤ c ∧ c ≤ 90 then some (c - 65)
  else if 97 ≤ c ∧ c ≤ 122 then some (c - 97 + 26)
  else if 48 ≤ c ∧ c ≤ 57 then some (c - 48 + 52)
  else if c = 43 then some 62
  else if c = 47 then some 63
  else none

/-- A decoder for padded standard base64 (RFC 4648 section 4): the text is a
sequence of 4-character quanta over the alphabet, and only the last quantum may
end in `=` or `==`. -/
def stdDecode : Bytes → Option Bytes
  | [] => some []
  | c0 :: c1 :: c2 :: c3 :: rest =>
      match decChar c0, decChar c1 with
      | some v0, some v1 =>
          if c2 = padChar then
            if c3 = padChar ∧ rest = [] then some [(v0 * 4 + v1 / 16) % 256] else none
          else
            match decChar c2 with
            | none => none
            | some v2 =>
                if c3 = padChar then
                  if rest = [] then some [(v0 * 4 + v1 / 16) % 256, (v1 * 16 + v2 / 4) % 256]
                  else none
                else
                  match decChar c3, stdDecode rest with
                  | some v3, some tl =>
                      some ((v0 * 4 + v1 / 16) % 256 :: (v1 * 16 + v2 / 4) % 256 ::
                        (v2 * 64 + v3) % 256 :: tl)
                  | _, _ => none
      | _, _ => none
  | _ => none

/-! ## hash/adler32 -/

/-- The modulus `mod` of hash/adler32: the largest prime below 65536. -/
def adlerMod : Nat := 65521

/-- The chunk length `nmax`: the most bytes that can be summed before the 32-bit
sums must be reduced. -/
def nmax : Nat := 5552

/-- The inner loops of `update` on one chunk: each byte does `s1 += x; s2 += s1`
on `uint32` values (the 4-byte unrolling of the Go loop performs the same steps). -/
def updateChunk (s1 s2 : Nat) : Bytes → Nat × Nat
  | [] => (s1, s2)
  | x :: p => updateChunk ((s1 + x) % 2 ^ 32) ((s2 + (s1 + x) % 2 ^ 32) % 2 ^ 32) p

/-- The outer loop of `update`: cut off at most `nmax` bytes, sum them, reduce both
sums modulo `mod`, continue with what is left.  The first argument bounds the
number of iterations. -/
def updateLoop : Nat → Nat → Nat → Bytes → Nat × Nat
  | 0, s1, s2, _ => (s1, s2)
  | fuel + 1, s1, s2, p =>
      if p.length > 0 then
        let q := if p.length > nmax then p.drop nmax else []
        let r := updateChunk s1 s2 (if p.length > nmax then p.take nmax else p)
        updateLoop fuel (r.1 % adlerMod) (r.2 % adlerMod) q
      else (s1, s2)

/-- The function `update(d, p)` of hash/adler32 on a `uint32` digest. -/
def update (d : Nat) (p : Bytes) : Nat :=
  let r := updateLoop p.length (d &&& 0xffff) (d >>> 16) p
  (r.2 <<< 16 ||| r.1) % 2 ^ 32

/-- One byte of Adler-32 as RFC 1950 defines it: the byte is added to `s1`, the new
`s1` to `s2`, both modulo 65521. -/
def adlerStep (s : Nat × Nat) (b : Nat) : Nat × Nat :=
  ((s.1 + b) % 65521, (s.2 + (s.1 + b) % 65521) % 65521)

/-- Adler-32 as RFC 1950 defines it: `s1` starts at 1 and `s2` at 0, every byte is
accumulated in order, and the checksum is `s2 * 65536 + s1`. -/
def adler32Spec (x : Bytes) : Nat :=
  (x.foldl adlerStep (1, 0)).2 * 65536 + (x.foldl adlerStep (1, 0)).1

/-- The four bytes `binary.BigEndian.PutUint32` stores. -/
def putUint32BE (v : Nat) : Bytes :=
  [v >>> 24 % 256, v >>> 16 % 256, v >>> 8 % 256, v % 256]

/-! ## compress/zlib, the writer -/

/-- The deflate compressor behind the zlib writer (compress/flate at the default
level), kept abstract: `onWrite fed p` are the bytes it emits while `p` is
written after `fed`, `onClose fed` the bytes it emits when it is closed. -/
structure Flate where
  onWrite : Bytes → Bytes → Bytes
  onClose : Bytes → Bytes

/-- The state of a `zlib.Writer` over a `bytes.Buffer`. -/
structure ZWriter where
  buf : Bytes
  level : Int
  wroteHeader : Bool
  fed : Bytes
  digest : Nat
  closed : Bool

/-- The call `zlib.NewWriter(&buf)`: default compression level, no dictionary. -/
def NewWriter : ZWriter :=
  { buf := [], level := -1, wroteHeader := false, fed := [], digest := 1, closed := false }

/-- The FLEVEL bits `writeHeader` chooses for a compression level. -/
def flevelBits (level : Int) : Nat :=
  if level = -2 ∨ level = 0 ∨ level = 1 then 0 <<< 6
  else if level = 2 ∨ level = 3 ∨ level = 4 ∨ level = 5 then 1 <<< 6
  else if level = 6 ∨ level = -1 then 2 <<< 6
  else 3 <<< 6

/-- The method `writeHeader`: CMF is 0x78, FLG carries the level and the check bits
that make the 16-bit header a multiple of 31; the digest starts at 1. -/
def writeHeader (z : ZWriter) : ZWriter :=
  let s0 := 0x78
  let s1 := flevelBits z.level
  let s1 := (s1 + (31 - (s0 * 256 + s1) % 31)) % 256
  { z with wroteHeader := true, buf := z.buf ++ [s0, s1], digest := 1 }

/-- The method `Write`: header first if needed, nothing more for an empty slice,
otherwise the compressor and the digest both take `p`.  Writes into a
`bytes.Buffer` do not fail, so the error result is always `none`. -/
def ZWriter.write (fl : Flate) (z : ZWriter) (p : Bytes) : ZWriter × Option Unit :=
  let z := if z.wroteHeader then z else writeHeader z
  if p.length = 0 then (z, none)
  else
    ({ z with buf := z.buf ++ fl.onWrite z.fed p, fed := z.fed ++ p, digest := update z.digest p },
      none)

/-- The method `Close`: header first if needed, close the compressor, then append
the big-endian Adler-32 digest. -/
def ZWriter.close (fl : Flate) (z : ZWriter) : ZWriter :=
  let z := if z.wroteHeader then z else writeHeader z
  let z := { z with buf := z.buf ++ fl.onClose z.fed }
  { z with buf := z.buf ++ putUint32BE z.digest, closed := true }

/-! ## unicode/utf8 and unicode/utf16 -/

/-- The constant `utf8.RuneError`, U+FFFD. -/
def RuneError : Nat := 0xFFFD

/-- The constant `utf8.UTFMax`. -/
def UTFMax : Nat := 4

/-- The size (low three bits of `first[s0]`) of the sequence a lead byte
0xC2..0xF4 starts. -/
def leadSize (s0 : Nat) : Nat :=
  if s0 < 0xE0 then 2 else if s0 < 0xF0 then 3 else 4

/-- Lower bound `acceptRanges[first[s0]>>4].lo` for the second byte. -/
def acceptLo (s0 : Nat) : Nat :=
  if s0 = 0xE0 then 0xA0 else if s0 = 0xF0 then 0x90 else 0x80

/-- Upper bound `acceptRanges[first[s0]>>4].hi` for the second byte. -/
def acceptHi (s0 : Nat) : Nat :=
  if s0 = 0xED then 0x9F else if s0 = 0xF4 then 0x8F else 0xBF

/-- The function `utf8.DecodeRuneInString`: the first rune of `s` and its width in
bytes; `(RuneError, 1)` for an invalid or truncated encoding, `(RuneError, 0)`
for the empty string. -/
def DecodeRuneInString : Bytes → Nat × Nat
  | [] => (RuneError, 0)
  | s0 :: t =>
      if s0 < 0x80 then (s0, 1)
      else if s0 < 0xC2 ∨ 0xF4 < s0 then (RuneError, 1)
      else
        match t with
        | [] => (RuneError, 1)
        | s1 :: t1 =>
            if t.length + 1 < leadSize s0 then (RuneError, 1)
            else if s1 < acceptLo s0 ∨ acceptHi s0 < s1 then (RuneError, 1)
            else if leadSize s0 ≤ 2 then ((s0 &&& 0x1F) <<< 6 ||| (s1 &&& 0x3F), 2)
            else
              match t1 with
              | [] => (RuneError, 1)
              | s2 :: t2 =>
                  if s2 < 0x80 ∨ 0xBF < s2 then (RuneError, 1)
                  else if leadSize s0 ≤ 3 then
                    ((s0 &&& 0x0F) <<< 12 ||| (s1 &&& 0x3F) <<< 6 ||| (s2 &&& 0x3F), 3)
                  else
                    match t2 with
                    | [] => (RuneError, 1)
                    | s3 :: _ =>
                        if s3 < 0x80 ∨ 0xBF < s3 then (RuneError, 1)
                        else
                          ((s0 &&& 0x07) <<< 18 ||| (s1 &&& 0x3F) <<< 12 |||
                            (s2 &&& 0x3F) <<< 6 ||| (s3 &&& 0x3F), 4)

/-- The table `htmlSafeSet`: the ASCII bytes written unescaped when HTML escaping is
on (all of 0x20..0x7F except the double quote, ampersand, angle brackets and
backslash). -/
def htmlSafeSet (b : Nat) : Bool :=
  decide (0x20 ≤ b ∧ b < 0x80 ∧ b ≠ 34 ∧ b ≠ 38 ∧ b ≠ 60 ∧ b ≠ 62 ∧ b ≠ 92)

/-- The digit string `hex`. -/
def hex : Bytes := [48, 49, 50, 51, 52, 53, 54, 55, 56, 57, 97, 98, 99, 100, 101, 102]

/-- Lookup `hex[i]`. -/
def hexDigit (i : Nat) : Nat := hex.getD i 0

/-- The escape `appendString` writes for an ASCII byte that is not HTML-safe: a
two-character escape for the quote, the backslash, backspace, form feed, line
feed, carriage return and tab, the six-character form for the rest. -/
def escapeByte (b : Nat) : Bytes :=
  if b = 92 ∨ b = 34 then [92, b]
  else if b = 8 then [92, 98]
  else if b = 12 then [92, 102]
  else if b = 10 then [92, 110]
  else if b = 13 then [92, 114]
  else if b = 9 then [92, 116]
  else [92, 117, 48, 48, hexDigit (b >>> 4), hexDigit (b &&& 0xF)]

/-- The loop of `appendString` with `escapeHTML` set, from index `i` on: safe ASCII
and valid multi-byte runes are copied, other ASCII is escaped, an invalid byte
becomes the text of the escape for U+FFFD, U+2028 and U+2029 are escaped.  The
first argument bounds the number of iterations. -/
def appendStringLoop : Nat → Bytes → Bytes
  | 0, _ => []
  | _ + 1, [] => []
  | fuel + 1, b :: t =>
      if b < 0x80 then
        if htmlSafeSet b then b :: appendStringLoop fuel t
        else escapeByte b ++ appendStringLoop fuel t
      else
        let r := DecodeRuneInString ((b :: t).take UTFMax)
        if r.1 = RuneError ∧ r.2 = 1 then
          [92, 117, 102, 102, 102, 100] ++ appendStringLoop fuel t
        else if r.1 = 0x2028 ∨ r.1 = 0x2029 then
          [92, 117, 50, 48, 50, hexDigit (r.1 &&& 0xF)] ++ appendStringLoop fuel ((b :: t).drop r.2)
        else (b :: t).take r.2 ++ appendStringLoop fuel ((b :: t).drop r.2)

/-- The function `appendString(dst, src, true)` on an empty `dst`: the JSON string
literal for a Go string. -/
def appendString (src : Bytes) : Bytes :=
  34 :: (appendStringLoop src.length src ++ [34])

/-- The order `strings.Compare(a, b) <= 0`: byte-wise lexicographic. -/
def bytesLE : Bytes → Bytes → Bool
  | [], _ => true
  | _ :: _, [] => false
  | a :: x, b :: y => decide (a < b) || (decide (a = b) && bytesLE x y)

/-- A Go `map[string]T`, as the list of its entries; keys occur once. -/
abbrev GoMap (α : Type) := List (Bytes × α)

/-- The assignment `m[k] = v`: overwrite the entry of `k`, or add one. -/
def mapSet {α : Type} : GoMap α → Bytes → α → GoMap α
  | [], k, v => [(k, v)]
  | (k1, v1) :: rest, k, v => if k1 = k then (k, v) :: rest else (k1, v1) :: mapSet rest k v

/-- The lookup `m[k]`. -/
def mapGet {α : Type} : GoMap α → Bytes → Option α
  | [], _ => none
  | (k1, v1) :: rest, k => if k1 = k then some v1 else mapGet rest k

/-- Insertion of one entry into a list of entries ordered by key. -/
def insertByKey (e : Bytes × Bytes) : List (Bytes × Bytes) → List (Bytes × Bytes)
  | [] => [e]
  | f :: rest => if bytesLE e.1 f.1 then e :: f :: rest else f :: insertByKey e rest

/-- The entries of a map ordered by key, as the map encoder orders them with
`slices.SortFunc` (keys of a map are distinct, so the order is determined). -/
def sortByKey (m : List (Bytes × Bytes)) : List (Bytes × Bytes) :=
  m.foldr insertByKey []

/-- The loop of the map encoder over the sorted entries: a comma before every entry
but the first, then key, colon, value. -/
def encodeMembers : Bool → List (Bytes × Bytes) → Bytes
  | _, [] => []
  | first, (k, v) :: rest =>
      (if first then [] else [44]) ++ appendString k ++ [58] ++ appendString v ++
        encodeMembers false rest

/-- The call `json.Marshal(encodedData)` for a non-nil `map[string]string`: an object
with the entries in key order.  No value of this type makes it fail. -/
def Marshal (m : GoMap Bytes) : Except String Bytes :=
  .ok ([123] ++ encodeMembers true (sortByKey m) ++ [125])

/-! ## Reading the document back: a JSON parser for objects of strings -/

/-- The constant `filepath.Separator`. -/
def Separator : Nat := 47

/-- The inner loop of the dot-dot case of `Clean`: starting from index `w`, step
back while `w > dotdot` and `out[w]` is not a separator. -/
def backtrackLoop (out : Bytes) (dotdot : Nat) : Nat → Nat
  | 0 => 0
  | w + 1 =>
      if w + 1 > dotdot ∧ out.getD (w + 1) 0 ≠ Separator then backtrackLoop out dotdot w
      else w + 1

/-- The main loop of `Clean` over the unread part of the path; `out` is the written
part of the buffer (`out.w` is its length) and `dotdot` the index backtracking
must not pass.  The first argument bounds the number of iterations. -/
def cleanLoop (rooted : Bool) : Nat → Bytes → Bytes → Nat → Bytes
  | 0, _, out, _ => out
  | _ + 1, [], out, _ => out
  | fuel + 1, c :: t, out, dotdot =>
      if c = Separator then
        -- empty path element
        cleanLoop rooted fuel t out dotdot
      else if c = 46 ∧ (t = [] ∨ t.head? = some Separator) then
        -- . element
        cleanLoop rooted fuel t out dotdot
      else if c = 46 ∧ t.head? = some 46 ∧ (t.tail = [] ∨ t.tail.head? = some Separator) then
        -- .. element: remove to last separator
        if out.length > dotdot then
          cleanLoop rooted fuel t.tail (out.take (backtrackLoop out dotdot (out.length - 1))) dotdot
        else if !rooted then
          let out1 := (if out.length > 0 then out ++ [Separator] else out) ++ [46, 46]
          cleanLoop rooted fuel t.tail out1 out1.length
        else cleanLoop rooted fuel t.tail out dotdot
      else
        -- real path element: add slash if needed, copy element
        let out1 :=
          if (rooted ∧ out.length ≠ 1) ∨ (!rooted ∧ out.length ≠ 0) then out ++ [Separator]
          else out
        cleanLoop rooted fuel ((c :: t).dropWhile (fun x => x ≠ Separator))
          (out1 ++ (c :: t).takeWhile (fun x => x ≠ Separator)) dotdot

/-- The function `filepath.Clean`. -/
def Clean (path : Bytes) : Bytes :=
  if path = [] then [46]
  else
    let rooted := decide (path.head? = some Separator)
    let out :=
      if rooted then cleanLoop rooted path.length path.tail [Separator] 1
      else cleanLoop rooted path.length path [] 0
    if out.length = 0 then [46] else out

/-- The function `filepath.Join` for two elements: the first non-empty element and
what follows it, joined by the separator and cleaned; empty when both are. -/
def Join (a b : Bytes) : Bytes :=
  if a ≠ [] then Clean (a ++ [Separator] ++ b)
  else if b ≠ [] then Clean b
  else []

/-- The comparing loop of `Rel`, on the parts `base[b0:]` and `targ[t0:]` not yet
compared: skip path elements while they agree.  The result is the element
`base[b0:bi]` the loop stopped at (empty when it ran to the end) and the two
remaining parts.  The first argument bounds the number of iterations. -/
def relLoop : Nat → Bytes → Bytes → Bytes × Bytes × Bytes
  | 0, b, t => ([], b, t)
  | fuel + 1, b, t =>
      if b ≠ [] ∧ t ≠ [] then
        let bw := b.takeWhile (fun x => x ≠ Separator)
        let tw := t.takeWhile (fun x => x ≠ Separator)
        if tw ≠ bw then (bw, b, t)
        else relLoop fuel ((b.dropWhile (fun x => x ≠ Separator)).tail)
          ((t.dropWhile (fun x => x ≠ Separator)).tail)
      else ([], b, t)

/-- The function `filepath.Rel`; `none` is the error "can't make targpath relative
to basepath". -/
def Rel (basepath targpath : Bytes) : Option Bytes :=
  let base := Clean basepath
  let targ := Clean targpath
  if targ = base then some [46]
  else
    let base := if base = [46] then [] else base
    let baseSlashed := decide (base.head? = some Separator)
    let targSlashed := decide (targ.head? = some Separator)
    if baseSlashed ≠ targSlashed then none
    else
      let r := relLoop (base.length + 1) base targ
      if r.1 = [46, 46] then none
      else if r.2.1 ≠ [] then
        let seps := r.2.1.count Separator
        some ([46, 46] ++ (List.replicate seps [Separator, 46, 46]).flatten ++
          (if r.2.2 ≠ [] then Separator :: r.2.2 else []))
      else some r.2.2

/-- The function `filepath.Base`: the last element of the path, after trailing
separators are removed; a dot for the empty path, a separator for a path of
separators only. -/
def Base (path : Bytes) : Bytes :=
  if path = [] then [46]
  else
    let p := (path.reverse.dropWhile (fun x => x = Separator)).reverse
    let p := (p.reverse.takeWhile (fun x => x ≠ Separator)).reverse
    if p = [] then [Separator] else p

/-! ## The file system -/

/-- The entries of a directory in the order `readDirNames` lists them, each with
what the walk finds there: an entry whose `Lstat` fails, a non-directory with
the result of `os.ReadFile` on it (`none` when the read fails), or a directory
with the flag whether its names can be listed and its own entries. -/
inductive Entries where
  | nil : Entries
  | noStat (name : Bytes) (rest : Entries) : Entries
  | file (name : Bytes) (content : Option Bytes) (rest : Entries) : Entries
  | dir (name : Bytes) (listable : Bool) (children : Entries) (rest : Entries) : Entries

/-- What `os.Lstat` finds at the root of a walk. -/
inductive Node where
  | file (content : Option Bytes) : Node
  | dir (listable : Bool) (children : Entries) : Node

/-- The state of the file system as the program observes it: `lstat` is the tree
below a walk root (`none` when `os.Lstat` of the root fails); `stat` is
`os.Stat` of an explicit path (`none` on error, otherwise whether it is a
directory); `readFile` is `os.ReadFile` of an explicit path. -/
structure FileSys where
  lstat : Bytes → Option Node
  stat : Bytes → Option Bool
  readFile : Bytes → Option Bytes

/-- The part of `os.FileInfo` the program looks at. -/
structure FileInfo where
  isDir : Bool

/-- A non-nil error returned by a `WalkFunc`. -/
inductive WalkErr where
  | skipDir : WalkErr
  | skipAll : WalkErr
  | other : WalkErr
  deriving DecidableEq

/-- A `filepath.WalkFunc` acting on a state: it gets the path, the file info (nil
when `Lstat` failed), whether an error is passed in, and what `os.ReadFile` of
the path would return. -/
abbrev WalkFunc (σ : Type) := Bytes → Option FileInfo → Bool → Option Bytes → σ → σ × Option WalkErr

/-- The loop of `walk` over the names of the directory `path`, with the recursive
call of `walk` on each entry unfolded. -/
def walkEntries {σ : Type} (walkFn : WalkFunc σ) (path : Bytes) : Entries → σ → σ × Option WalkErr
  | .nil, s => (s, none)
  | .noStat name rest, s =>
      match walkFn (Join path name) none true none s with
      | (s1, some e) => if e ≠ .skipDir then (s1, some e) else walkEntries walkFn path rest s1
      | (s1, none) => walkEntries walkFn path rest s1
  | .file name content rest, s =>
      match walkFn (Join path name) (some ⟨false⟩) false content s with
      | (s1, some e) => (s1, some e)
      | (s1, none) => walkEntries walkFn path rest s1
  | .dir name listable children rest, s =>
      let r :=
        match walkFn (Join path name) (some ⟨true⟩) (!listable) none s with
        | (s1, some e) => (s1, some e)
        | (s1, none) =>
            if listable then walkEntries walkFn (Join path name) children s1 else (s1, none)
      match r with
      | (s2, some e) => if e ≠ .skipDir then (s2, some e) else walkEntries walkFn path rest s2
      | (s2, none) => walkEntries walkFn path rest s2

/-- The function `walk(path, info, walkFn)` at the root. -/
def walk {σ : Type} (walkFn : WalkFunc σ) (path : Bytes) : Node → σ → σ × Option WalkErr
  | .file content, s => walkFn path (some ⟨false⟩) false content s
  | .dir listable children, s =>
      match walkFn path (some ⟨true⟩) (!listable) none s with
      | (s1, some e) => (s1, some e)
      | (s1, none) => if listable then walkEntries walkFn path children s1 else (s1, none)

/-- The function `filepath.Walk(root, fn)`: when `Lstat` of the root fails the
function is called once with that error; `SkipDir` and `SkipAll` are turned
into success. -/
def Walk {σ : Type} (fs : FileSys) (root : Bytes) (fn : WalkFunc σ) (s : σ) : σ × Option WalkErr :=
  let r :=
    match fs.lstat root with
    | none => fn root none true none s
    | some node => walk fn root node s
  if r.2 = some .skipDir ∨ r.2 = some .skipAll then (r.1, none) else r

/-! ## main.go -/

/-- Lines 40-48 and 80-88: a fresh zlib writer over a buffer, `Write`, `Close`, and
the bytes of the buffer; `none` when `Write` reports an error. -/
def compressContent (fl : Flate) (fileContent : Bytes) : Option Bytes :=
  match NewWriter.write fl fileContent with
  | (_, some _) => none
  | (w, none) => some (w.close fl).buf

/-- The bytes a zlib writer holds after one `Write` of `x` and `Close`. -/
def zlibCompress (fl : Flate) (x : Bytes) : Bytes :=
  ((NewWriter.write fl x).1.close fl).buf

/-- The function literal passed to `filepath.Walk` (lines 21-54), acting on
`filesData`. -/
def walkCallback (fl : Flate) (directoryPath : Bytes) : WalkFunc (GoMap Bytes) :=
  fun path info err read filesData =>
    if err then (filesData, none)
    else
      match info with
      | none => (filesData, none)
      | some info =>
          if !info.isDir then
            match Rel directoryPath path with
            | none => (filesData, none)
            | some relPath =>
                match read with
                | none => (filesData, none)
                | some fileContent =>
                    match compressContent fl fileContent with
                    | none => (filesData, none)
                    | some compressedContent => (mapSet filesData relPath compressedContent, none)
          else (filesData, none)

/-- The loop over `filePaths` (lines 62-92). -/
def processFiles (fs : FileSys) (fl : Flate) : List Bytes → GoMap Bytes → GoMap Bytes
  | [], filesData => filesData
  | filePath :: rest, filesData =>
      match fs.stat filePath with
      | none => processFiles fs fl rest filesData
      | some isDir =>
          if isDir then processFiles fs fl rest filesData
          else
            match fs.readFile filePath with
            | none => processFiles fs fl rest filesData
            | some fileContent =>
                match compressContent fl fileContent with
                | none => processFiles fs fl rest filesData
                | some compressedContent =>
                    processFiles fs fl rest (mapSet filesData (Base filePath) compressedContent)

/-- The loop of lines 95-98: `encodedData[filePath] = base64(compressedContent)` for
every entry of `filesData`. -/
def encodeAll (filesData : GoMap Bytes) : GoMap Bytes :=
  filesData.foldl (fun encodedData e => mapSet encodedData e.1 (stdEncode e.2)) []

/-- The map `filesData` after the directory walk and the loop over the explicit
paths (lines 17-92), or the error of line 57. -/
def collectFiles (fs : FileSys) (fl : Flate) (directoryPath : Bytes) (filePaths : List Bytes) :
    Except String (GoMap Bytes) :=
  let walked : Except String (GoMap Bytes) :=
    if directoryPath ≠ [] then
      match Walk fs directoryPath (walkCallback fl directoryPath) [] with
      | (_, some _) => .error "error walking directory"
      | (filesData, none) => .ok filesData
    else .ok []
  match walked with
  | .error e => .error e
  | .ok filesData => .ok (processFiles fs fl filePaths filesData)

/-- The map `encodedData` of line 95, the file map of the specification. -/
def fileMap (fs : FileSys) (fl : Flate) (directoryPath : Bytes) (filePaths : List Bytes) :
    Except String (GoMap Bytes) :=
  match collectFiles fs fl directoryPath filePaths with
  | .error e => .error e
  | .ok filesData => .ok (encodeAll filesData)

/-- The function `compressAndEncodeFiles` of main.go: the final base64 text, or an
error. -/
def compressAndEncodeFiles (fs : FileSys) (fl : Flate) (directoryPath : Bytes)
    (filePaths : List Bytes) : Except String Bytes :=
  match fileMap fs fl directoryPath filePaths with
  | .error e => .error e
  | .ok encodedData =>
      match Marshal encodedData with
      | .error _ => .error "error marshaling JSON"
      | .ok jsonData => .ok (stdEncode jsonData)

/-! ## Notions of the specification -/

/-- The content of an explicit path that exists, is not a directory and can be
read; `none` for a path the loop skips. -/
def explicitContent (fs : FileSys) (p : Bytes) : Option Bytes :=
  match fs.stat p with
  | some false => fs.readFile p
  | _ => none

/-- The source items of the explicit paths in processing order: basename and raw
content of every path that is not skipped. -/
def explicitItems (fs : FileSys) (ps : List Bytes) : List (Bytes × Bytes) :=
  ps.filterMap (fun p => (explicitContent fs p).map (fun c => (Base p, c)))

/-- Assign a list of entries to a map, in order. -/
def setAll {α : Type} (m : GoMap α) (items : List (Bytes × α)) : GoMap α :=
  items.foldl (fun acc e => mapSet acc e.1 e.2) m

/-- The keys of a map. -/
def keys {α : Type} (m : GoMap α) : List Bytes := m.map Prod.fst

/-- The readable non-directory entries the walk reaches below the directory `path`,
in the order of the walk, each under the path string the walk builds for it:
entries whose `Lstat` fails, unreadable files and the inside of directories
that cannot be listed are left out. -/
def walkFiles (path : Bytes) : Entries → List (Bytes × Bytes)
  | .nil => []
  | .noStat _ rest => walkFiles path rest
  | .file name content rest =>
      (match content with
        | some c => [(Join path name, c)]
        | none => []) ++ walkFiles path rest
  | .dir name listable children rest =>
      (if listable then walkFiles (Join path name) children else []) ++ walkFiles path rest

/-- The readable non-directory entries the walk of a root reaches (the root itself
when it is not a directory). -/
def rootFiles (root : Bytes) : Option Node → List (Bytes × Bytes)
  | none => []
  | some (.file (some c)) => [(root, c)]
  | some (.file none) => []
  | some (.dir listable children) => if listable then walkFiles root children else []

/-- The source items of the directory walk in processing order: the identifier
`Rel` computes for each reached file, with its raw content; a file for which
`Rel` fails is skipped. -/
def dirItems (fs : FileSys) (directoryPath : Bytes) : List (Bytes × Bytes) :=
  if directoryPath = [] then []
  else
    (rootFiles directoryPath (fs.lstat directoryPath)).filterMap
      (fun e => (Rel directoryPath e.1).map (fun k => (k, e.2)))

/-- All source items in processing order: those of the directory walk, then those
of the explicit paths. -/
def sourceItems (fs : FileSys) (directoryPath : Bytes) (filePaths : List Bytes) :
    List (Bytes × Bytes) :=
  dirItems fs directoryPath ++ explicitItems fs filePaths

/-- The order of the map encoder on entries: by key. -/
def keyLE (e f : Bytes × Bytes) : Prop := bytesLE e.1 f.1 = true

/-- The strict order on entries: keys in order and different. -/
def keyLT (e f : Bytes × Bytes) : Prop := bytesLE e.1 f.1 = true ∧ e.1 ≠ f.1

/-! ## Path elements -/

/-- A name a directory can hold: not empty, no separator in it, and neither of the
two dot names. -/
def NormalName (n : Bytes) : Prop := n ≠ [] ∧ Separator ∉ n ∧ n ≠ [46] ∧ n ≠ [46, 46]

/-- Path elements joined by the separator. -/
def joinSep : List Bytes → Bytes
  | [] => []
  | [e] => e
  | e :: f :: es => e ++ Separator :: joinSep (f :: es)

/-- The elements of a path: the parts between separators. -/
def splitSep : Bytes → List Bytes
  | [] => [[]]
  | c :: t =>
      if c = Separator then [] :: splitSep t
      else
        match splitSep t with
        | [] => [[c]]
        | e :: es => (c :: e) :: es

/-- The effect of one path element on the cleaned path, kept as the number of
leading dot-dot elements and the names after them. -/
def stepElem (rooted : Bool) (st : Nat × List Bytes) (e : Bytes) : Nat × List Bytes :=
  if e = [] ∨ e = [46] then st
  else if e = [46, 46] then
    if st.2 ≠ [] then (st.1, st.2.dropLast)
    else if rooted then st else (st.1 + 1, st.2)
  else (st.1, st.2 ++ [e])

/-- The text of a cleaned path. -/
def renderState (rooted : Bool) (st : Nat × List Bytes) : Bytes :=
  (if rooted then [Separator] else []) ++ joinSep (List.replicate st.1 [46, 46] ++ st.2)

/-- Whether a path starts with the separator. -/
def isRooted (s : Bytes) : Bool := decide (s.head? = some Separator)

/-- The cleaned form of a path, computed on its elements. -/
def normPath (rooted : Bool) (s : Bytes) : Nat × List Bytes :=
  List.foldl (stepElem rooted) (0, []) (splitSep s)

/-- A state of the cleaned path is valid when a rooted path has no leading dot-dot
and every name is a normal name. -/
def ValidState (rooted : Bool) (st : Nat × List Bytes) : Prop :=
  (rooted = true → st.1 = 0) ∧ ∀ n ∈ st.2, NormalName n

/-- The names a directory listing holds. -/
def entryNames : Entries → List Bytes
  | .nil => []
  | .noStat name rest => name :: entryNames rest
  | .file name _ rest => name :: entryNames rest
  | .dir name _ _ rest => name :: entryNames rest

/-- A tree as a file system presents it: every name is a normal name, and the
names within one directory are distinct. -/
def WellFormed : Entries → Prop
  | .nil => True
  | .noStat name rest => NormalName name ∧ name ∉ entryNames rest ∧ WellFormed rest
  | .file name _ rest => NormalName name ∧ name ∉ entryNames rest ∧ WellFormed rest
  | .dir name _ children rest =>
      NormalName name ∧ name ∉ entryNames rest ∧ WellFormed children ∧ WellFormed rest

/-- The readable non-directory entries under a directory, each with the names
leading to it from the directory and its content: a file counts when its
bytes can be read and every directory on the way to it can be listed. -/
def visibleFiles : Entries → List (List Bytes × Bytes)
  | .nil => []
  | .noStat _ rest => visibleFiles rest
  | .file name content rest =>
      (match content with
        | some c => [([name], c)]
        | none => []) ++ visibleFiles rest
  | .dir name listable children rest =>
      (if listable then (visibleFiles children).map (fun e => (name :: e.1, e.2)) else []) ++
        visibleFiles rest

/-- The directory `data` of the example: `a.txt` holding `hello` and `sub/b.txt`
holding `world`. -/
def exampleTree : Entries :=
  .file (str "a.txt") (some (str "hello"))
    (.dir (str "sub") true (.file (str "b.txt") (some (str "world")) .nil) .nil)

/-- A file system holding the directory `data` of the example. -/
def exampleFS : FileSys where
  lstat := fun p => if p = str "data" then some (.dir true exampleTree) else none
  stat := fun _ => none
  readFile := fun _ => none

/-- A file system holding the directory `data` with `x.txt` (content `old`) and
the regular file `other/x.txt` (content `new`). -/
def collisionFS : FileSys where
  lstat := fun p =>
    if p = str "data" then some (.dir true (.file (str "x.txt") (some (str "old")) .nil)) else none
  stat := fun p => if p = str "other/x.txt" then some false else none
  readFile := fun p => if p = str "other/x.txt" then some (str "new") else none

/-- A compressor for examples: nothing is emitted on `Write`, and `Close` emits the
bytes of the input as one stored block (a valid deflate stream for inputs
shorter than 65536 bytes). -/
def storedFlate : Flate where
  onWrite := fun _ _ => []
  onClose := fun x =>
    [1, x.length % 256, x.length / 256 % 256, 255 - x.length % 256, 255 - x.length / 256 % 256] ++
      x.map (fun b => b % 256)

/-- A file system holding the regular file `/tmp/x/report.csv` with content `1,2,3`. -/
def reportFS : FileSys where
  lstat := fun _ => none
  stat := fun p => if p = str "/tmp/x/report.csv" then some false
    else if p = str "/tmp/x" ∨ p = str "/tmp" ∨ p = str "/" then some true else none
  readFile := fun p => if p = str "/tmp/x/report.csv" then some (str "1,2,3") else none

/-- A file system holding the regular files `b/two.txt` and `a/one.txt`. -/
def pairFS : FileSys where
  lstat := fun _ => none
  stat := fun p => if p = str "b/two.txt" ∨ p = str "a/one.txt" then some false else none
  readFile := fun p => if p = str "b/two.txt" then some (str "2")
    else if p = str "a/one.txt" then some (str "1") else none

/-- A file system in which nothing exists. -/
def emptyFS : FileSys where
  lstat := fun _ => none
  stat := fun _ => none
  readFile := fun _ => none

/-! # Theorems -/

/-! ## base64 -/

theorem encChar_decChar : ∀ i, i < 64 → decChar (encChar i) = some i ∧ encChar i ≠ padChar := by
  decide

theorem and_63 (x : Nat) : x &&& 0x3F = x % 64 := Nat.and_pow_two_sub_one_eq_mod x 6

theorem or_bytes2 (a b : Nat) (hb : b < 256) : a <<< 16 ||| b <<< 8 = a * 65536 + b * 256 := by
  have h : b <<< 8 < 2 ^ 16 := by rw [Nat.shiftLeft_eq]; omega
  rw [Nat.shiftLeft_eq a, Nat.mul_comm a, ← Nat.mul_add_lt_is_or h, Nat.shiftLeft_eq]

theorem or_bytes3 (a b c : Nat) (hb : b < 256) (hc : c < 256) :
    a <<< 16 ||| b <<< 8 ||| c = a * 65536 + b * 256 + c := by
  rw [or_bytes2 a b hb]
  have h : c < 2 ^ 8 := by omega
  have e : a * 65536 + b * 256 = 2 ^ 8 * (a * 256 + b) := by omega
  rw [e, ← Nat.mul_add_lt_is_or h]

theorem stdDecode_stdEncode_aux (x : Bytes) (hx : IsBytes x) :
    stdDecode (stdEncode x) = some x := by
  induction x using stdEncode.induct with
  | case1 => rfl
  | case2 a =>
      have ha : a < 256 := hx a (by simp)
      simp only [stdEncode, and_63, Nat.shiftRight_eq_div_pow, Nat.shiftLeft_eq, stdDecode]
      have h0 := encChar_decChar (a * 2 ^ 16 / 2 ^ 18 % 64) (by omega)
      have h1 := encChar_decChar (a * 2 ^ 16 / 2 ^ 12 % 64) (by omega)
      rw [h0.1, h1.1]
      simp
      omega
  | case3 a b =>
      have ha : a < 256 := hx a (by simp)
      have hb : b < 256 := hx b (by simp)
      simp only [stdEncode, or_bytes2 a b hb, and_63, Nat.shiftRight_eq_div_pow, stdDecode]
      have h0 := encChar_decChar ((a * 65536 + b * 256) / 2 ^ 18 % 64) (by omega)
      have h1 := encChar_decChar ((a * 65536 + b * 256) / 2 ^ 12 % 64) (by omega)
      have h2 := encChar_decChar ((a * 65536 + b * 256) / 2 ^ 6 % 64) (by omega)
      rw [h0.1, h1.1]
      simp only [h2.2, if_false, h2.1]
      simp
      omega
  | case4 a b c rest ih =>
      have ha : a < 256 := hx a (by simp)
      have hb : b < 256 := hx b (by simp)
      have hc : c < 256 := hx c (by simp)
      have hr : IsBytes rest := fun y hy => hx y (by simp [hy])
      simp only [stdEncode, or_bytes3 a b c hb hc, and_63, Nat.shiftRight_eq_div_pow, stdDecode]
      have h0 := encChar_decChar ((a * 65536 + b * 256 + c) / 2 ^ 18 % 64) (by omega)
      have h1 := encChar_decChar ((a * 65536 + b * 256 + c) / 2 ^ 12 % 64) (by omega)
      have h2 := encChar_decChar ((a * 65536 + b * 256 + c) / 2 ^ 6 % 64) (by omega)
      have h3 := encChar_decChar ((a * 65536 + b * 256 + c) % 64) (by omega)
      rw [h0.1, h1.1]
      simp only [h2.2, h3.2, if_false, h2.1, h3.1, ih hr]
      simp
      omega

/-- C8: for every byte sequence `x`, decoding the standard padded base64 text the
encoder produces for `x` gives back `x`; the encoder is a total function, so
it has no failure case. -/
theorem stdDecode_stdEncode (x : Bytes) (hx : IsBytes x) :
    stdDecode (stdEncode x) = some x :=
  stdDecode_stdEncode_aux x hx

theorem stdDecode_stdEncode_witness :
    IsBytes [0, 255, 16, 104, 105] ∧
      stdDecode (stdEncode [0, 255, 16, 104, 105]) = some [0, 255, 16, 104, 105] :=
  ⟨by decide, stdDecode_stdEncode [0, 255, 16, 104, 105] (by decide)⟩

/-! ## Maps -/

theorem mapGet_mapSet {α : Type} (m : GoMap α) (k k1 : Bytes) (v : α) :
    mapGet (mapSet m k v) k1 = if k = k1 then some v else mapGet m k1 := by
  induction m with
  | nil => simp [mapSet, mapGet]
  | cons e rest ih =>
      obtain ⟨a, b⟩ := e
      by_cases h : a = k
      · subst h
        by_cases h1 : a = k1 <;> simp [mapSet, mapGet, h1]
      · by_cases h1 : a = k1
        · subst h1
          have h2 : ¬ k = a := fun e => h e.symm
          simp [mapSet, mapGet, h, h2]
        · simp [mapSet, mapGet, h, h1, ih]

theorem keys_mapSet_of_mem {α : Type} (m : GoMap α) (k : Bytes) (v : α) (h : k ∈ keys m) :
    keys (mapSet m k v) = keys m := by
  induction m with
  | nil => simp [keys] at h
  | cons e rest ih =>
      obtain ⟨a, b⟩ := e
      by_cases h1 : a = k
      · subst h1
        simp [mapSet, keys]
      · have h2 : k ∈ keys rest := by
          simp only [keys, List.map_cons, List.mem_cons] at h
          rcases h with h | h
          · exact absurd h.symm h1
          · exact h
        have := ih h2
        simp only [keys] at this
        simp [mapSet, keys, h1, this]

theorem mapSet_of_not_mem {α : Type} (m : GoMap α) (k : Bytes) (v : α) (h : k ∉ keys m) :
    mapSet m k v = m ++ [(k, v)] := by
  induction m with
  | nil => simp [mapSet]
  | cons e rest ih =>
      obtain ⟨a, b⟩ := e
      simp only [keys, List.map_cons, List.mem_cons, not_or] at h
      have h1 : ¬ a = k := fun e => h.1 e.symm
      have h2 : k ∉ keys rest := by simpa [keys] using h.2
      simp [mapSet, h1, ih h2]

theorem keys_mapSet_nodup {α : Type} (m : GoMap α) (k : Bytes) (v : α) (h : (keys m).Nodup) :
    (keys (mapSet m k v)).Nodup := by
  by_cases hk : k ∈ keys m
  · rw [keys_mapSet_of_mem m k v hk]; exact h
  · rw [mapSet_of_not_mem m k v hk]
    simp only [keys, List.map_append, List.map_cons, List.map_nil]
    rw [List.nodup_append]
    refine ⟨h, by simp, ?_⟩
    intro a ha hb
    simp only [List.mem_singleton] at hb
    subst hb
    exact hk ha

theorem keys_setAll_nodup {α : Type} (items : List (Bytes × α)) (m : GoMap α)
    (h : (keys m).Nodup) : (keys (setAll m items)).Nodup := by
  induction items generalizing m with
  | nil => simpa [setAll] using h
  | cons e rest ih =>
      simp only [setAll, List.foldl_cons]
      exact ih _ (keys_mapSet_nodup m e.1 e.2 h)

theorem setAll_append {α : Type} (m : GoMap α) (xs ys : List (Bytes × α)) :
    setAll m (xs ++ ys) = setAll (setAll m xs) ys := by
  simp [setAll, List.foldl_append]

theorem mapGet_setAll_of_not_mem {α : Type} (items : List (Bytes × α)) (m : GoMap α) (k : Bytes)
    (h : k ∉ items.map Prod.fst) : mapGet (setAll m items) k = mapGet m k := by
  induction items generalizing m with
  | nil => simp [setAll]
  | cons e rest ih =>
      simp only [List.map_cons, List.mem_cons, not_or] at h
      have h1 : ¬ e.1 = k := fun e => h.1 e.symm
      have := ih (mapSet m e.1 e.2) h.2
      simp only [setAll, List.foldl_cons] at this ⊢
      rw [this, mapGet_mapSet, if_neg h1]

theorem mem_keys_mapSet {α : Type} (m : GoMap α) (k k1 : Bytes) (v : α) :
    k1 ∈ keys (mapSet m k v) ↔ k1 = k ∨ k1 ∈ keys m := by
  by_cases hk : k ∈ keys m
  · rw [keys_mapSet_of_mem m k v hk]
    constructor
    · exact fun h => Or.inr h
    · rintro (h | h)
      · rw [h]; exact hk
      · exact h
  · rw [mapSet_of_not_mem m k v hk]
    simp only [keys, List.map_append, List.map_cons, List.map_nil, List.mem_append,
      List.mem_singleton]
    tauto

theorem mem_keys_setAll {α : Type} (items : List (Bytes × α)) (m : GoMap α) (k : Bytes) :
    k ∈ keys (setAll m items) ↔ k ∈ keys m ∨ k ∈ items.map Prod.fst := by
  induction items generalizing m with
  | nil => simp [setAll]
  | cons e rest ih =>
      have := ih (mapSet m e.1 e.2)
      simp only [setAll, List.foldl_cons] at this ⊢
      rw [this, mem_keys_mapSet]
      simp only [List.map_cons, List.mem_cons]
      tauto

theorem mapGet_eq_none_iff {α : Type} (m : GoMap α) (k : Bytes) :
    mapGet m k = none ↔ k ∉ keys m := by
  induction m with
  | nil => simp [mapGet, keys]
  | cons e rest ih =>
      obtain ⟨a, b⟩ := e
      by_cases h : a = k
      · simp [mapGet, keys, h]
      · have h1 : ¬ k = a := fun e => h e.symm
        simp only [keys] at ih
        simp [mapGet, keys, h, h1, ih]

theorem setAll_of_fresh {α : Type} (items : List (Bytes × α)) (m : GoMap α)
    (h : (keys m ++ items.map Prod.fst).Nodup) : setAll m items = m ++ items := by
  induction items generalizing m with
  | nil => simp [setAll]
  | cons e rest ih =>
      have hk : e.1 ∉ keys m := by
        intro hm
        rw [List.nodup_append] at h
        exact h.2.2 hm (by simp)
      have h2 : (keys (m ++ [e]) ++ rest.map Prod.fst).Nodup := by
        simpa [keys, List.append_assoc] using h
      have := ih (m ++ [e]) h2
      simp only [setAll, List.foldl_cons] at this ⊢
      rw [mapSet_of_not_mem m e.1 e.2 hk, this]
      simp

theorem encodeAll_eq_map (m : GoMap Bytes) (h : (keys m).Nodup) :
    encodeAll m = m.map (fun e => (e.1, stdEncode e.2)) := by
  have key : ∀ (items acc : GoMap Bytes), (keys acc ++ keys items).Nodup →
      items.foldl (fun encodedData e => mapSet encodedData e.1 (stdEncode e.2)) acc
        = acc ++ items.map (fun e => (e.1, stdEncode e.2)) := by
    intro items
    induction items with
    | nil => intro acc _; simp
    | cons e rest ih =>
        intro acc hn
        have hk : e.1 ∉ keys acc := by
          intro hm
          rw [List.nodup_append] at hn
          exact hn.2.2 hm (by simp [keys])
        have h2 : (keys (acc ++ [(e.1, stdEncode e.2)]) ++ keys rest).Nodup := by
          simpa [keys, List.append_assoc] using hn
        rw [List.foldl_cons, mapSet_of_not_mem acc e.1 _ hk, ih _ h2]
        simp
  have := key m [] (by simpa [keys] using h)
  simpa [encodeAll] using this

theorem mapGet_map_encode (m : GoMap Bytes) (k : Bytes) :
    mapGet (m.map (fun e => (e.1, stdEncode e.2))) k = (mapGet m k).map stdEncode := by
  induction m with
  | nil => simp [mapGet]
  | cons e rest ih =>
      obtain ⟨a, b⟩ := e
      by_cases h : a = k <;> simp [mapGet, h, ih]

/-! ## The shape of the pipeline -/

theorem compressContent_eq (fl : Flate) (x : Bytes) :
    compressContent fl x = some (zlibCompress fl x) := by
  unfold compressContent zlibCompress ZWriter.write
  by_cases h : x.length = 0 <;> simp [h]

theorem processFiles_eq (fs : FileSys) (fl : Flate) (ps : List Bytes) (m : GoMap Bytes) :
    processFiles fs fl ps m
      = setAll m ((explicitItems fs ps).map (fun e => (e.1, zlibCompress fl e.2))) := by
  induction ps generalizing m with
  | nil => simp [processFiles, explicitItems, setAll]
  | cons p rest ih =>
      unfold processFiles
      cases hs : fs.stat p with
      | none => simp [explicitItems, explicitContent, hs, ih]
      | some isDir =>
          cases isDir with
          | true => simp [explicitItems, explicitContent, hs] at ih ⊢; exact ih m
          | false =>
              cases hr : fs.readFile p with
              | none => simp [explicitItems, explicitContent, hs, hr] at ih ⊢; exact ih m
              | some c =>
                  simp only [compressContent_eq, Bool.false_eq_true, if_false]
                  rw [ih]
                  simp [explicitItems, explicitContent, hs, hr, setAll]

theorem walkEntries_callback (fl : Flate) (d : Bytes) (es : Entries) (path : Bytes)
    (m : GoMap Bytes) :
    walkEntries (walkCallback fl d) path es m
      = (setAll m (((walkFiles path es).filterMap
          (fun e => (Rel d e.1).map (fun k => (k, e.2)))).map
            (fun e => (e.1, zlibCompress fl e.2))), none) := by
  induction es generalizing path m with
  | nil => simp [walkEntries, walkFiles, setAll]
  | noStat name rest ih =>
      simp only [walkEntries, walkFiles, walkCallback, if_true]
      exact ih path m
  | file name content rest ih =>
      simp only [walkEntries, walkFiles, walkCallback]
      cases hrel : Rel d (Join path name) with
      | none =>
          cases content <;> simp [hrel, ih]
      | some k =>
          cases content with
          | none => simp [ih]
          | some c => simp [hrel, ih, compressContent_eq, setAll]
  | dir name listable children rest ihc ihr =>
      cases listable with
      | true =>
          simp only [walkEntries, walkFiles, walkCallback, ihc, ihr]
          simp [setAll_append]
      | false =>
          simp only [walkEntries, walkFiles, walkCallback, ihr]
          simp

theorem Walk_callback (fs : FileSys) (fl : Flate) (d : Bytes) (hd : d ≠ []) :
    Walk fs d (walkCallback fl d) []
      = (setAll [] ((dirItems fs d).map (fun e => (e.1, zlibCompress fl e.2))), none) := by
  unfold Walk dirItems
  rw [if_neg hd]
  cases hl : fs.lstat d with
  | none => simp [walkCallback, rootFiles, setAll]
  | some node =>
      cases node with
      | file content =>
          cases hrel : Rel d d with
          | none => cases content <;> simp [walk, walkCallback, rootFiles, hrel, setAll]
          | some k =>
              cases content with
              | none => simp [walk, walkCallback, rootFiles, hrel, setAll]
              | some c =>
                  simp [walk, walkCallback, rootFiles, hrel, setAll, compressContent_eq]
      | dir listable children =>
          cases listable with
          | true => simp [walk, walkCallback, rootFiles, walkEntries_callback]
          | false => simp [walk, walkCallback, rootFiles, setAll]

theorem collectFiles_eq (fs : FileSys) (fl : Flate) (d : Bytes) (ps : List Bytes) :
    collectFiles fs fl d ps
      = .ok (setAll [] ((sourceItems fs d ps).map (fun e => (e.1, zlibCompress fl e.2)))) := by
  unfold collectFiles sourceItems
  by_cases hd : d = []
  · subst hd
    simp [processFiles_eq, dirItems]
  · simp only [ne_eq, hd, not_false_eq_true, if_true, Walk_callback fs fl d hd, processFiles_eq]
    rw [List.map_append, setAll_append]

theorem keys_collect_nodup (fl : Flate) (items : List (Bytes × Bytes)) :
    (keys (setAll ([] : GoMap Bytes) (items.map (fun e => (e.1, zlibCompress fl e.2))))).Nodup :=
  keys_setAll_nodup _ [] (by simp [keys])

theorem fileMap_eq (fs : FileSys) (fl : Flate) (d : Bytes) (ps : List Bytes) :
    fileMap fs fl d ps
      = .ok ((setAll [] ((sourceItems fs d ps).map (fun e => (e.1, zlibCompress fl e.2)))).map
          (fun e => (e.1, stdEncode e.2))) := by
  unfold fileMap
  rw [collectFiles_eq]
  simp only
  rw [encodeAll_eq_map _ (keys_collect_nodup fl _)]

theorem compressAndEncodeFiles_eq (fs : FileSys) (fl : Flate) (d : Bytes) (ps : List Bytes) :
    compressAndEncodeFiles fs fl d ps
      = .ok (stdEncode ([123] ++ encodeMembers true (sortByKey
          ((setAll [] ((sourceItems fs d ps).map (fun e => (e.1, zlibCompress fl e.2)))).map
            (fun e => (e.1, stdEncode e.2)))) ++ [125])) := by
  unfold compressAndEncodeFiles
  rw [fileMap_eq]
  simp [Marshal]

/-! ## Explicit paths -/

theorem compressAndEncodeFiles_ok (fs : FileSys) (fl : Flate) (d : Bytes) (ps : List Bytes) :
    ∃ out, compressAndEncodeFiles fs fl d ps = .ok out :=
  ⟨_, compressAndEncodeFiles_eq fs fl d ps⟩

theorem explicitItems_append (fs : FileSys) (xs ys : List Bytes) :
    explicitItems fs (xs ++ ys) = explicitItems fs xs ++ explicitItems fs ys := by
  simp [explicitItems, List.filterMap_append]

theorem explicitItems_cons_skip (fs : FileSys) (p : Bytes) (ps : List Bytes)
    (h : explicitContent fs p = none) : explicitItems fs (p :: ps) = explicitItems fs ps := by
  simp [explicitItems, h]

theorem explicitItems_cons_keep (fs : FileSys) (p c : Bytes) (ps : List Bytes)
    (h : explicitContent fs p = some c) :
    explicitItems fs (p :: ps) = (Base p, c) :: explicitItems fs ps := by
  simp [explicitItems, h]

theorem explicitContent_eq_none (fs : FileSys) (p : Bytes)
    (h : fs.stat p = none ∨ fs.stat p = some true ∨ fs.readFile p = none) :
    explicitContent fs p = none := by
  unfold explicitContent
  rcases h with h | h | h
  · simp [h]
  · simp [h]
  · cases hs : fs.stat p with
    | none => rfl
    | some b => cases b <;> simp [h]

theorem explicitItems_filter_skip (fs : FileSys) (p : Bytes) (ps : List Bytes)
    (h : explicitContent fs p = none) :
    explicitItems fs (ps.filter (fun q => decide (q ≠ p))) = explicitItems fs ps := by
  induction ps with
  | nil => rfl
  | cons q rest ih =>
      by_cases hq : q = p
      · subst hq
        rw [List.filter_cons_of_neg (by simp), explicitItems_cons_skip fs q rest h, ih]
      · rw [List.filter_cons_of_pos (by simpa using hq)]
        cases hc : explicitContent fs q with
        | none =>
            rw [explicitItems_cons_skip fs q _ hc, explicitItems_cons_skip fs q _ hc, ih]
        | some c =>
            rw [explicitItems_cons_keep fs q c _ hc, explicitItems_cons_keep fs q c _ hc, ih]

/-- C5 (evaluation at the failing input): with a root path whose `Lstat` fails the
walk function is called once with the error, returns nil, and
`compressAndEncodeFiles` returns the encoding of the empty object instead of
an error. -/
theorem missing_root_is_not_an_error :
    compressAndEncodeFiles emptyFS storedFlate (str "missing") [] = .ok (str "e30=") ∧
      stdDecode (str "e30=") = some (str "{}") :=
  ⟨rfl, by decide⟩

/-- C6: an explicit path that does not exist, names a directory, or cannot be read
is skipped: for every directory root and every list containing it, the run
succeeds and returns the same result (and builds the same file map) as for the
list without that occurrence of the path, and as for the list without any
occurrence of it. -/
theorem unusable_path_is_skipped (fs : FileSys) (fl : Flate) (d p : Bytes) (pre post : List Bytes)
    (hp : fs.stat p = none ∨ fs.stat p = some true ∨ fs.readFile p = none) :
    (∃ out, compressAndEncodeFiles fs fl d (pre ++ p :: post) = .ok out) ∧
      compressAndEncodeFiles fs fl d (pre ++ p :: post)
        = compressAndEncodeFiles fs fl d (pre ++ post) ∧
      fileMap fs fl d (pre ++ p :: post) = fileMap fs fl d (pre ++ post) ∧
      compressAndEncodeFiles fs fl d (pre ++ p :: post)
        = compressAndEncodeFiles fs fl d ((pre ++ p :: post).filter (fun q => decide (q ≠ p))) := by
  have hc := explicitContent_eq_none fs p hp
  have e1 : sourceItems fs d (pre ++ p :: post) = sourceItems fs d (pre ++ post) := by
    simp [sourceItems, explicitItems_append, explicitItems_cons_skip fs p post hc]
  have e2 : sourceItems fs d ((pre ++ p :: post).filter (fun q => decide (q ≠ p)))
      = sourceItems fs d (pre ++ p :: post) := by
    simp only [sourceItems]
    rw [explicitItems_filter_skip fs p _ hc]
  refine ⟨compressAndEncodeFiles_ok fs fl d _, ?_, ?_, ?_⟩
  · rw [compressAndEncodeFiles_eq, compressAndEncodeFiles_eq, e1]
  · rw [fileMap_eq, fileMap_eq, e1]
  · rw [compressAndEncodeFiles_eq, compressAndEncodeFiles_eq, e2]

theorem unusable_path_is_skipped_witness :
    (emptyFS.stat (str "nope") = none ∨ emptyFS.stat (str "nope") = some true ∨
        emptyFS.readFile (str "nope") = none) ∧
      compressAndEncodeFiles emptyFS storedFlate [] ([] ++ str "nope" :: [])
        = compressAndEncodeFiles emptyFS storedFlate [] ([] ++ []) :=
  ⟨Or.inl rfl,
    (unusable_path_is_skipped emptyFS storedFlate [] (str "nope") [] [] (Or.inl rfl)).2.1⟩

/-! ## `Base` -/

theorem Base_spec (p : Bytes) (hne : ∃ x ∈ p, x ≠ Separator) :
    Separator ∉ Base p ∧ Base p ≠ [] ∧
      ∃ dirPart trailing, p = dirPart ++ Base p ++ trailing ∧
        (dirPart = [] ∨ dirPart.getLast? = some Separator) ∧ ∀ x ∈ trailing, x = Separator := by
  obtain ⟨x, hx, hxs⟩ := hne
  have hp : p ≠ [] := List.ne_nil_of_mem hx
  set r := p.reverse with hr
  set r2 := r.dropWhile (fun x => x = Separator) with hr2
  have hsplit1 : r = r.takeWhile (fun x => decide (x = Separator)) ++ r2 :=
    (List.takeWhile_append_dropWhile _ r).symm
  have hr2ne : r2 ≠ [] := by
    intro h0
    have hall : ∀ y ∈ r, y = Separator := by
      intro y hy
      rw [hsplit1, h0, List.append_nil] at hy
      have h := List.mem_takeWhile_imp hy
      simpa using h
    exact hxs (hall x (by simpa [hr] using hx))
  have hhead : ∀ y, r2.head? = some y → y ≠ Separator := by
    intro y hy
    have := List.head?_dropWhile_not (fun x => decide (x = Separator)) r
    rw [← hr2, hy] at this
    simpa using this
  set b := r2.takeWhile (fun x => decide (x ≠ Separator)) with hb
  have hsplit2 : r2 = b ++ r2.dropWhile (fun x => decide (x ≠ Separator)) :=
    (List.takeWhile_append_dropWhile _ r2).symm
  have hbne : b ≠ [] := by
    cases h2 : r2 with
    | nil => exact absurd h2 hr2ne
    | cons y t =>
        have hy : y ≠ Separator := hhead y (by simp [h2])
        simp [hb, h2, List.takeWhile_cons, hy]
  have hbase : Base p = b.reverse := by
    unfold Base
    simp only [hp, if_false, List.reverse_reverse]
    rw [← hr, ← hr2, ← hb]
    simp [hbne]
  refine ⟨?_, ?_, ?_⟩
  · rw [hbase]
    intro hmem
    have := List.mem_takeWhile_imp (List.mem_reverse.mp hmem)
    simp at this
  · rw [hbase]; simpa using hbne
  · refine ⟨(r2.dropWhile (fun x => decide (x ≠ Separator))).reverse,
      (r.takeWhile (fun x => decide (x = Separator))).reverse, ?_, ?_, ?_⟩
    · rw [hbase, ← List.reverse_append, ← hsplit2, ← List.reverse_append, ← hsplit1, hr,
        List.reverse_reverse]
    · cases hd : r2.dropWhile (fun x => decide (x ≠ Separator)) with
      | nil => left; rfl
      | cons y t =>
          right
          have := List.head?_dropWhile_not (fun x => decide (x ≠ Separator)) r2
          rw [hd] at this
          simp at this
          simp [this]
    · intro y hy
      have := List.mem_takeWhile_imp (List.mem_reverse.mp hy)
      simpa using this

/-! ## The order of the keys -/

theorem bytesLE_total (a b : Bytes) : bytesLE a b = true ∨ bytesLE b a = true := by
  induction a generalizing b with
  | nil => left; simp [bytesLE]
  | cons x xs ih =>
      cases b with
      | nil => right; simp [bytesLE]
      | cons y ys =>
          simp only [bytesLE, Bool.or_eq_true, decide_eq_true_eq, Bool.and_eq_true]
          rcases Nat.lt_trichotomy x y with h | h | h
          · left; left; exact h
          · subst h
            rcases ih ys with h1 | h1
            · left; right; exact ⟨rfl, h1⟩
            · right; right; exact ⟨rfl, h1⟩
          · right; left; exact h

theorem bytesLE_trans (a b c : Bytes) (h1 : bytesLE a b = true) (h2 : bytesLE b c = true) :
    bytesLE a c = true := by
  induction a generalizing b c with
  | nil => simp [bytesLE]
  | cons x xs ih =>
      cases b with
      | nil => simp [bytesLE] at h1
      | cons y ys =>
          cases c with
          | nil => simp [bytesLE] at h2
          | cons z zs =>
              simp only [bytesLE, Bool.or_eq_true, decide_eq_true_eq, Bool.and_eq_true] at h1 h2 ⊢
              rcases h1 with h1 | ⟨h1, h1r⟩
              · rcases h2 with h2 | ⟨h2, _⟩
                · left; omega
                · left; omega
              · rcases h2 with h2 | ⟨h2, h2r⟩
                · left; omega
                · right; exact ⟨by omega, ih ys zs h1r h2r⟩

theorem bytesLE_antisymm (a b : Bytes) (h1 : bytesLE a b = true) (h2 : bytesLE b a = true) :
    a = b := by
  induction a generalizing b with
  | nil =>
      cases b with
      | nil => rfl
      | cons y ys => simp [bytesLE] at h2
  | cons x xs ih =>
      cases b with
      | nil => simp [bytesLE] at h1
      | cons y ys =>
          simp only [bytesLE, Bool.or_eq_true, decide_eq_true_eq, Bool.and_eq_true] at h1 h2
          rcases h1 with h1 | ⟨h1, h1r⟩
          · rcases h2 with h2 | ⟨h2, _⟩ <;> omega
          · rcases h2 with h2 | ⟨_, h2r⟩
            · omega
            · rw [h1, ih ys h1r h2r]

theorem insertByKey_perm (e : Bytes × Bytes) (l : List (Bytes × Bytes)) :
    (insertByKey e l).Perm (e :: l) := by
  induction l with
  | nil => simp [insertByKey]
  | cons f rest ih =>
      unfold insertByKey
      split
      · exact List.Perm.refl _
      · exact (List.Perm.cons f ih).trans (List.Perm.swap e f rest)

theorem sortByKey_perm (l : List (Bytes × Bytes)) : (sortByKey l).Perm l := by
  induction l with
  | nil => simp [sortByKey]
  | cons e rest ih =>
      have : sortByKey (e :: rest) = insertByKey e (sortByKey rest) := rfl
      rw [this]
      exact (insertByKey_perm e _).trans (List.Perm.cons e ih)

theorem insertByKey_sorted (e : Bytes × Bytes) (l : List (Bytes × Bytes))
    (h : l.Pairwise keyLE) : (insertByKey e l).Pairwise keyLE := by
  induction l with
  | nil => simp [insertByKey]
  | cons f rest ih =>
      unfold insertByKey
      rw [List.pairwise_cons] at h
      split
      · rename_i hle
        rw [List.pairwise_cons]
        refine ⟨?_, List.pairwise_cons.mpr h⟩
        intro g hg
        rw [List.mem_cons] at hg
        rcases hg with hg | hg
        · rw [hg]; exact hle
        · exact bytesLE_trans _ _ _ hle (h.1 g hg)
      · rename_i hle
        have hfe : bytesLE f.1 e.1 = true := by
          rcases bytesLE_total e.1 f.1 with h1 | h1
          · exact absurd h1 hle
          · exact h1
        rw [List.pairwise_cons]
        refine ⟨?_, ih h.2⟩
        intro g hg
        have := (insertByKey_perm e rest).mem_iff.mp hg
        rw [List.mem_cons] at this
        rcases this with hg | hg
        · rw [hg]; exact hfe
        · exact h.1 g hg

theorem sortByKey_sorted (l : List (Bytes × Bytes)) : (sortByKey l).Pairwise keyLE := by
  induction l with
  | nil => simp [sortByKey]
  | cons e rest ih => exact insertByKey_sorted e _ ih

theorem sortByKey_strict (l : List (Bytes × Bytes)) (h : (keys l).Nodup) :
    (sortByKey l).Pairwise keyLT := by
  have hs := sortByKey_sorted l
  have hn : (keys (sortByKey l)).Nodup := by
    have := (sortByKey_perm l).map Prod.fst
    exact (List.Perm.nodup_iff this).mpr h
  have hn2 : (sortByKey l).Pairwise (fun e f => e.1 ≠ f.1) := by
    simpa [keys, List.Nodup, List.pairwise_map] using hn
  exact (hs.and hn2).imp (fun h => h)

theorem sortByKey_eq_of_perm (l1 l2 : List (Bytes × Bytes)) (hp : l1.Perm l2)
    (h : (keys l1).Nodup) : sortByKey l1 = sortByKey l2 := by
  have h2 : (keys l2).Nodup := (List.Perm.nodup_iff (hp.map Prod.fst)).mp h
  have s1 := sortByKey_strict l1 h
  have s2 := sortByKey_strict l2 h2
  have pp : (sortByKey l1).Perm (sortByKey l2) :=
    (sortByKey_perm l1).trans (hp.trans (sortByKey_perm l2).symm)
  have anti : ∀ a b : Bytes × Bytes, keyLT a b → keyLT b a → a = b := by
    intro a b hab hba
    exact absurd (bytesLE_antisymm _ _ hab.1 hba.1) hab.2
  exact @List.eq_of_perm_of_sorted _ keyLT ⟨anti⟩ _ _ pp s1 s2

/-! ## Explicit paths: identifiers and order -/

theorem mapGet_setAll_last {α : Type} (m : GoMap α) (xs ys : List (Bytes × α)) (k : Bytes) (v : α)
    (h : k ∉ ys.map Prod.fst) : mapGet (setAll m (xs ++ (k, v) :: ys)) k = some v := by
  rw [setAll_append]
  have : setAll (setAll m xs) ((k, v) :: ys) = setAll (mapSet (setAll m xs) k v) ys := rfl
  rw [this, mapGet_setAll_of_not_mem ys _ k h, mapGet_mapSet, if_pos rfl]

theorem explicitContent_of_file (fs : FileSys) (p c : Bytes) (hstat : fs.stat p = some false)
    (hread : fs.readFile p = some c) : explicitContent fs p = some c := by
  simp [explicitContent, hstat, hread]

theorem not_mem_explicit_keys (fs : FileSys) (k : Bytes) (post : List Bytes)
    (hpost : ∀ q ∈ post, Base q = k → explicitContent fs q = none) :
    k ∉ (explicitItems fs post).map Prod.fst := by
  induction post with
  | nil => simp [explicitItems]
  | cons q rest ih =>
      have ih1 := ih (fun r hr => hpost r (List.mem_cons_of_mem q hr))
      cases hc : explicitContent fs q with
      | none => rw [explicitItems_cons_skip fs q rest hc]; exact ih1
      | some c =>
          rw [explicitItems_cons_keep fs q c rest hc]
          simp only [List.map_cons, List.mem_cons, not_or]
          refine ⟨?_, ih1⟩
          intro hk
          have := hpost q (List.mem_cons_self q rest) hk.symm
          rw [this] at hc
          exact Option.noConfusion hc

/-- C2: an explicit path that exists, is not a directory and is readable is stored
under its basename with value base64(zlib(content)): that is the entry of the
file map whenever no later usable path of the list has the same basename, it
is the only entry when the path is the only input, and the basename is the
final path component, free of separators. -/
theorem explicit_path_stored_under_basename (fs : FileSys) (fl : Flate) (p c : Bytes)
    (pre post : List Bytes) (hstat : fs.stat p = some false) (hread : fs.readFile p = some c)
    (hne : ∃ x ∈ p, x ≠ Separator)
    (hpost : ∀ q ∈ post, Base q = Base p → explicitContent fs q = none) :
    (∃ m, fileMap fs fl [] (pre ++ p :: post) = .ok m ∧
        mapGet m (Base p) = some (stdEncode (zlibCompress fl c))) ∧
      fileMap fs fl [] [p] = .ok [(Base p, stdEncode (zlibCompress fl c))] ∧
      Separator ∉ Base p ∧
      ∃ dirPart trailing, p = dirPart ++ Base p ++ trailing ∧
        (dirPart = [] ∨ dirPart.getLast? = some Separator) ∧ ∀ x ∈ trailing, x = Separator := by
  have hc := explicitContent_of_file fs p c hstat hread
  have hb := Base_spec p hne
  refine ⟨⟨_, fileMap_eq fs fl [] _, ?_⟩, ?_, hb.1, hb.2.2⟩
  · rw [mapGet_map_encode]
    have e : (sourceItems fs [] (pre ++ p :: post)).map (fun e => (e.1, zlibCompress fl e.2))
        = (explicitItems fs pre).map (fun e => (e.1, zlibCompress fl e.2)) ++
          (Base p, zlibCompress fl c) ::
            (explicitItems fs post).map (fun e => (e.1, zlibCompress fl e.2)) := by
      simp [sourceItems, dirItems, explicitItems_append, explicitItems_cons_keep fs p c post hc]
    rw [e, mapGet_setAll_last]
    · rfl
    · have := not_mem_explicit_keys fs (Base p) post hpost
      simpa [List.map_map] using this
  · rw [fileMap_eq]
    simp [sourceItems, dirItems, explicitItems, hc, setAll, mapSet]

theorem explicit_path_stored_under_basename_witness :
    reportFS.stat (str "/tmp/x/report.csv") = some false ∧
      fileMap reportFS storedFlate [] [str "/tmp/x/report.csv"]
        = .ok [(str "report.csv", stdEncode (zlibCompress storedFlate (str "1,2,3")))] :=
  ⟨by decide,
    (explicit_path_stored_under_basename reportFS storedFlate (str "/tmp/x/report.csv")
      (str "1,2,3") [] [] (by decide) (by decide) ⟨116, by decide, by decide⟩
      (by intro q hq; cases hq)).2.1⟩

/-! ## Independence of the order of the explicit paths -/

theorem explicitItems_perm (fs : FileSys) (ps1 ps2 : List Bytes) (h : ps1.Perm ps2) :
    (explicitItems fs ps1).Perm (explicitItems fs ps2) :=
  h.filterMap _

/-- C10: when two lists of explicit paths are permutations of each other and the
usable files among them have pairwise distinct basenames, distinct also from
the identifiers the directory walk produces, `compressAndEncodeFiles` returns
the same text for both; the document lists the entries of the file map with
their keys in strictly increasing byte order. -/
theorem output_independent_of_path_order (fs : FileSys) (fl : Flate) (d : Bytes)
    (ps1 ps2 : List Bytes) (hperm : ps1.Perm ps2)
    (hnodup : ((explicitItems fs ps1).map Prod.fst).Nodup)
    (hfresh : ∀ k ∈ (explicitItems fs ps1).map Prod.fst, k ∉ (dirItems fs d).map Prod.fst) :
    compressAndEncodeFiles fs fl d ps1 = compressAndEncodeFiles fs fl d ps2 ∧
      ∃ m members, fileMap fs fl d ps1 = .ok m ∧ members.Perm m ∧ members.Pairwise keyLT ∧
        compressAndEncodeFiles fs fl d ps1
          = .ok (stdEncode ([123] ++ encodeMembers true members ++ [125])) := by
  set f : Bytes × Bytes → Bytes × Bytes := fun e => (e.1, zlibCompress fl e.2) with hf
  set g : Bytes × Bytes → Bytes × Bytes := fun e => (e.1, stdEncode e.2) with hg
  set m0 := setAll ([] : GoMap Bytes) ((dirItems fs d).map f) with hm0
  have hm0n : (keys m0).Nodup := keys_setAll_nodup _ [] (by simp [keys])
  have hkeys0 : ∀ k ∈ keys m0, k ∈ (dirItems fs d).map Prod.fst := by
    intro k hk
    rw [hm0, mem_keys_setAll] at hk
    rcases hk with hk | hk
    · simp [keys] at hk
    · simpa [hf, List.map_map, Function.comp_def] using hk
  have hfst : ∀ l : List (Bytes × Bytes), (l.map f).map Prod.fst = l.map Prod.fst := by
    intro l; simp [hf, List.map_map, Function.comp_def]
  have hp12 := explicitItems_perm fs ps1 ps2 hperm
  have fresh : ∀ ps, (explicitItems fs ps1).Perm (explicitItems fs ps) →
      setAll m0 ((explicitItems fs ps).map f) = m0 ++ (explicitItems fs ps).map f := by
    intro ps hp
    apply setAll_of_fresh
    rw [hfst, List.nodup_append]
    refine ⟨hm0n, (List.Perm.nodup_iff (hp.map Prod.fst)).mp hnodup, ?_⟩
    intro k hk1 hk2
    have hk3 : k ∈ (explicitItems fs ps1).map Prod.fst := (hp.map Prod.fst).mem_iff.mpr hk2
    exact hfresh k hk3 (hkeys0 k hk1)
  have shape : ∀ ps, (explicitItems fs ps1).Perm (explicitItems fs ps) →
      setAll [] ((sourceItems fs d ps).map f) = m0 ++ (explicitItems fs ps).map f := by
    intro ps hp
    rw [sourceItems, List.map_append, setAll_append, ← hm0, fresh ps hp]
  have e1 := shape ps1 (List.Perm.refl _)
  have e2 := shape ps2 hp12
  have hn1 : (keys ((m0 ++ (explicitItems fs ps1).map f).map g)).Nodup := by
    have := keys_collect_nodup fl (sourceItems fs d ps1)
    rw [← hf, e1] at this
    simpa [keys, hg, List.map_map, Function.comp_def] using this
  have hpm : ((m0 ++ (explicitItems fs ps1).map f).map g).Perm
      ((m0 ++ (explicitItems fs ps2).map f).map g) :=
    ((List.Perm.append_left m0 (hp12.map f)).map g)
  refine ⟨?_, _, _, fileMap_eq fs fl d ps1, sortByKey_perm _, ?_, compressAndEncodeFiles_eq fs fl d ps1⟩
  · rw [compressAndEncodeFiles_eq, compressAndEncodeFiles_eq, ← hf, ← hg, e1, e2,
      sortByKey_eq_of_perm _ _ hpm hn1]
  · apply sortByKey_strict
    rw [← hf, ← hg, e1]
    exact hn1

theorem output_independent_of_path_order_witness :
    [str "a/one.txt", str "b/two.txt"].Perm [str "b/two.txt", str "a/one.txt"] ∧
      compressAndEncodeFiles pairFS storedFlate [] [str "a/one.txt", str "b/two.txt"]
        = compressAndEncodeFiles pairFS storedFlate [] [str "b/two.txt", str "a/one.txt"] :=
  ⟨List.Perm.swap _ _ _,
    (output_independent_of_path_order pairFS storedFlate [] [str "a/one.txt", str "b/two.txt"]
      [str "b/two.txt", str "a/one.txt"] (List.Perm.swap _ _ _) (by decide)
      (by decide)).1⟩

/-! ## Adler-32: the chunked 32-bit loop computes the checksum of RFC 1950 -/

theorem updateChunk_spec (p : Bytes) : ∀ (s1 s2 k : Nat), IsBytes p → s1 ≤ 65520 + 255 * k →
    2 * s2 ≤ 131040 * (k + 1) + 255 * (k * (k + 1)) → k + p.length ≤ 5552 →
    ((updateChunk s1 s2 p).1 % 65521, (updateChunk s1 s2 p).2 % 65521)
      = p.foldl adlerStep (s1 % 65521, s2 % 65521) := by
  induction p with
  | nil => intro s1 s2 k _ _ _ _; simp [updateChunk]
  | cons x p ih =>
      intro s1 s2 k hp h1 h2 hk
      have hx : x < 256 := hp x (by simp)
      have hp1 : IsBytes p := fun y hy => hp y (by simp [hy])
      simp only [List.length_cons] at hk
      have hk1 : k ≤ 5551 := by omega
      have hkk : k * (k + 1) ≤ 5551 * 5552 := Nat.mul_le_mul hk1 (by omega)
      have e1 : (s1 + x) % 2 ^ 32 = s1 + x := Nat.mod_eq_of_lt (by omega)
      have e2 : (s2 + (s1 + x)) % 2 ^ 32 = s2 + (s1 + x) := Nat.mod_eq_of_lt (by omega)
      have hq : (k + 1) * (k + 1 + 1) = k * (k + 1) + 2 * (k + 1) := by ring
      simp only [updateChunk, e1, e2, List.foldl_cons]
      rw [ih (s1 + x) (s2 + (s1 + x)) (k + 1) hp1 (by omega) (by rw [hq]; omega) (by omega)]
      have a1 : (s1 + x) % 65521 = (s1 % 65521 + x) % 65521 := by omega
      have a2 : (s2 + (s1 + x)) % 65521 = (s2 % 65521 + (s1 % 65521 + x) % 65521) % 65521 := by
        omega
      simp only [adlerStep, a1, a2]

theorem foldl_adlerStep_lt (p : Bytes) : ∀ (s : Nat × Nat), s.1 < 65521 → s.2 < 65521 →
    (p.foldl adlerStep s).1 < 65521 ∧ (p.foldl adlerStep s).2 < 65521 := by
  induction p with
  | nil => intro s h1 h2; exact ⟨h1, h2⟩
  | cons x p ih =>
      intro s _ _
      simp only [List.foldl_cons]
      exact ih _ (Nat.mod_lt _ (by decide)) (Nat.mod_lt _ (by decide))

theorem updateLoop_spec (fuel : Nat) : ∀ (p : Bytes) (s1 s2 : Nat), IsBytes p →
    p.length ≤ fuel → s1 < 65521 → s2 < 65521 →
    updateLoop fuel s1 s2 p = p.foldl adlerStep (s1, s2) := by
  induction fuel with
  | zero =>
      intro p s1 s2 _ hl _ _
      have : p = [] := List.length_eq_zero.mp (by omega)
      subst this
      rfl
  | succ fuel ih =>
      intro p s1 s2 hp hl h1 h2
      unfold updateLoop
      by_cases h0 : p.length > 0
      · simp only [h0, if_true]
        have hm1 : s1 % 65521 = s1 := Nat.mod_eq_of_lt h1
        have hm2 : s2 % 65521 = s2 := Nat.mod_eq_of_lt h2
        by_cases hn : p.length > nmax
        · simp only [hn, if_true]
          have hpt : IsBytes (p.take nmax) := fun y hy => hp y (List.mem_of_mem_take hy)
          have hpd : IsBytes (p.drop nmax) := fun y hy => hp y (List.mem_of_mem_drop hy)
          have hlt : (p.take nmax).length ≤ 5552 := by
            rw [List.length_take]; exact Nat.min_le_left _ _
          have hc := updateChunk_spec (p.take nmax) s1 s2 0 hpt (by omega) (by omega) (by omega)
          rw [hm1, hm2] at hc
          have hb := foldl_adlerStep_lt (p.take nmax) (s1, s2) h1 h2
          have hld : (p.drop nmax).length ≤ fuel := by
            rw [List.length_drop]; unfold nmax at hn ⊢; omega
          rw [adlerMod, ih (p.drop nmax) _ _ hpd hld (Nat.mod_lt _ (by decide))
            (Nat.mod_lt _ (by decide)), hc, ← List.foldl_append, List.take_append_drop]
        · simp only [hn, if_false]
          have hlen : p.length ≤ 5552 := by unfold nmax at hn; omega
          have hc := updateChunk_spec p s1 s2 0 hp (by omega) (by omega) (by omega)
          rw [hm1, hm2] at hc
          rw [adlerMod, ih [] _ _ (by intro y hy; cases hy) (by simp) (Nat.mod_lt _ (by decide))
            (Nat.mod_lt _ (by decide)), hc]
          rfl
      · have : p = [] := List.length_eq_zero.mp (by omega)
        subst this
        simp

theorem update_eq_adler32Spec (x : Bytes) (hx : IsBytes x) : update 1 x = adler32Spec x := by
  unfold update adler32Spec
  have h1 : (1 : Nat) &&& 0xffff = 1 := by decide
  have h2 : (1 : Nat) >>> 16 = 0 := by decide
  simp only [h1, h2]
  rw [updateLoop_spec x.length x 1 0 hx (Nat.le_refl _) (by decide) (by decide)]
  have hb := foldl_adlerStep_lt x (1, 0) (by decide) (by decide)
  have hlt : (x.foldl adlerStep (1, 0)).1 < 2 ^ 16 := by omega
  rw [Nat.shiftLeft_eq, Nat.mul_comm, ← Nat.mul_add_lt_is_or hlt]
  omega

theorem adler32Spec_lt (x : Bytes) : adler32Spec x < 2 ^ 32 := by
  have hb := foldl_adlerStep_lt x (1, 0) (by decide) (by decide)
  unfold adler32Spec
  omega

/-! ## The zlib stream -/

theorem zlibCompress_eq (fl : Flate) (x : Bytes) (hx : IsBytes x) :
    zlibCompress fl x
      = [0x78, 0x9C] ++ ((if x = [] then [] else fl.onWrite [] x) ++ fl.onClose x) ++
        putUint32BE (adler32Spec x) := by
  have hh : writeHeader NewWriter
      = { buf := [0x78, 0x9C], level := -1, wroteHeader := true, fed := [], digest := 1,
          closed := false } := by
    simp [writeHeader, NewWriter, flevelBits]
  unfold zlibCompress ZWriter.write
  have hw : NewWriter.wroteHeader = false := rfl
  by_cases h : x = []
  · subst h
    simp [hw, hh, ZWriter.close, adler32Spec]
  · have hl : ¬ x.length = 0 := fun e => h (List.length_eq_zero.mp e)
    simp [hw, hh, ZWriter.close, h, hl, update_eq_adler32Spec x hx]

theorem putUint32BE_value (v : Nat) (hv : v < 2 ^ 32) :
    ∃ b0 b1 b2 b3, putUint32BE v = [b0, b1, b2, b3] ∧ b0 < 256 ∧ b1 < 256 ∧ b2 < 256 ∧ b3 < 256 ∧
      ((b0 * 256 + b1) * 256 + b2) * 256 + b3 = v := by
  refine ⟨v >>> 24 % 256, v >>> 16 % 256, v >>> 8 % 256, v % 256, rfl, ?_⟩
  simp only [Nat.shiftRight_eq_div_pow]
  omega

/-- C9: for every raw byte sequence the compressed bytes the program stores are the
buffer of the zlib writer after `Write` and `Close`, a finalized stream: the
two header bytes 0x78 0x9C (deflate, 32K window, default level, no dictionary,
16-bit value a multiple of 31), then what the compressor emitted on `Write` and
on `Close`, then four bytes that are the big-endian Adler-32 checksum (RFC 1950)
of the raw bytes. -/
theorem compressed_bytes_are_finalized_zlib_stream (fl : Flate) (x : Bytes) (hx : IsBytes x) :
    compressContent fl x = some ((NewWriter.write fl x).1.close fl).buf ∧
      ((NewWriter.write fl x).1.close fl).closed = true ∧
      ∃ cmf flg b0 b1 b2 b3,
        ((NewWriter.write fl x).1.close fl).buf
          = [cmf, flg] ++ ((if x = [] then [] else fl.onWrite [] x) ++ fl.onClose x) ++
            [b0, b1, b2, b3] ∧
        (cmf * 256 + flg) % 31 = 0 ∧ cmf % 16 = 8 ∧ cmf / 16 = 7 ∧ flg / 64 = 2 ∧
        flg / 32 % 2 = 0 ∧
        b0 < 256 ∧ b1 < 256 ∧ b2 < 256 ∧ b3 < 256 ∧
        ((b0 * 256 + b1) * 256 + b2) * 256 + b3 = adler32Spec x := by
  refine ⟨compressContent_eq fl x, ?_, ?_⟩
  · simp [ZWriter.close]
  · obtain ⟨b0, b1, b2, b3, hb, h0, h1, h2, h3, hv⟩ :=
      putUint32BE_value (adler32Spec x) (adler32Spec_lt x)
    refine ⟨0x78, 0x9C, b0, b1, b2, b3, ?_, by decide, by decide, by decide, by decide,
      by decide, h0, h1, h2, h3, hv⟩
    have := zlibCompress_eq fl x hx
    rw [hb] at this
    exact this

theorem compressed_bytes_are_finalized_zlib_stream_witness :
    IsBytes (str "hello") ∧
      compressContent storedFlate (str "hello")
        = some ((NewWriter.write storedFlate (str "hello")).1.close storedFlate).buf :=
  ⟨by decide, (compressed_bytes_are_finalized_zlib_stream storedFlate (str "hello") (by decide)).1⟩

/-! ## `Clean`, `Join` and `Rel` on walked paths -/

/-! ### elements -/

theorem splitSep_ne_nil (s : Bytes) : splitSep s ≠ [] := by
  cases s with
  | nil => simp [splitSep]
  | cons c t =>
      unfold splitSep
      split
      · simp
      · split <;> simp

theorem splitSep_sep_cons (t : Bytes) : splitSep (Separator :: t) = [] :: splitSep t := by
  simp [splitSep]

theorem splitSep_append (e t : Bytes) (he : Separator ∉ e) :
    splitSep (e ++ Separator :: t) = e :: splitSep t := by
  induction e with
  | nil => simp [splitSep]
  | cons c e ih =>
      have hc : c ≠ Separator := fun h => he (by simp [h])
      have he1 : Separator ∉ e := fun h => he (by simp [h])
      rw [List.cons_append, splitSep, if_neg hc, ih he1]

theorem splitSep_single (e : Bytes) (he : Separator ∉ e) : splitSep e = [e] := by
  induction e with
  | nil => simp [splitSep]
  | cons c e ih =>
      have hc : c ≠ Separator := fun h => he (by simp [h])
      have he1 : Separator ∉ e := fun h => he (by simp [h])
      simp only [splitSep, hc, if_false, ih he1]

theorem splitSep_general_append (a b : Bytes) :
    splitSep (a ++ Separator :: b) = splitSep a ++ splitSep b := by
  induction a with
  | nil => simp [splitSep]
  | cons c a ih =>
      by_cases hc : c = Separator
      · simp [splitSep, hc, ih]
      · rw [List.cons_append, splitSep, if_neg hc, ih, splitSep, if_neg hc]
        cases h : splitSep a with
        | nil => exact absurd h (splitSep_ne_nil a)
        | cons e es => simp

theorem mem_splitSep_no_sep (s : Bytes) : ∀ e ∈ splitSep s, Separator ∉ e := by
  induction s with
  | nil => simp [splitSep]
  | cons c t ih =>
      intro e he
      by_cases hc : c = Separator
      · simp only [splitSep, hc, if_true, List.mem_cons] at he
        rcases he with he | he
        · simp [he]
        · exact ih e he
      · simp only [splitSep, hc, if_false] at he
        cases h : splitSep t with
        | nil => exact absurd h (splitSep_ne_nil t)
        | cons f fs =>
            rw [h] at he ih
            simp only [List.mem_cons] at he
            rcases he with he | he
            · rw [he]
              intro hm
              simp only [List.mem_cons] at hm
              rcases hm with hm | hm
              · exact hc hm.symm
              · exact ih f (by simp) hm
            · exact ih e (by simp [he])

theorem joinSep_append_singleton (xs : List Bytes) (e : Bytes) :
    joinSep (xs ++ [e]) = if xs = [] then e else joinSep xs ++ Separator :: e := by
  induction xs with
  | nil => simp [joinSep]
  | cons x xs ih =>
      cases xs with
      | nil => simp [joinSep]
      | cons y ys =>
          have e1 : joinSep (x :: y :: ys ++ [e]) = x ++ Separator :: joinSep (y :: ys ++ [e]) := rfl
          rw [e1, ih]
          simp [joinSep]

theorem joinSep_eq_nil (xs : List Bytes) (h : ∀ x ∈ xs, x ≠ []) : joinSep xs = [] ↔ xs = [] := by
  cases xs with
  | nil => simp [joinSep]
  | cons x xs =>
      cases xs with
      | nil => simp [joinSep]; exact h x (by simp)
      | cons y ys => simp [joinSep]

theorem splitSep_joinSep (xs : List Bytes) (hne : xs ≠ []) (h : ∀ x ∈ xs, Separator ∉ x) :
    splitSep (joinSep xs) = xs := by
  induction xs with
  | nil => exact absurd rfl hne
  | cons x xs ih =>
      cases xs with
      | nil => simp [joinSep, splitSep_single x (h x (by simp))]
      | cons y ys =>
          simp only [joinSep]
          rw [splitSep_append _ _ (h x (by simp)), ih (by simp) (fun z hz => h z (by simp [hz]))]

theorem joinSep_append (xs ys : List Bytes) :
    joinSep (xs ++ ys)
      = if xs = [] then joinSep ys else if ys = [] then joinSep xs
        else joinSep xs ++ Separator :: joinSep ys := by
  induction xs with
  | nil => simp
  | cons x xs ih =>
      cases xs with
      | nil =>
          cases ys with
          | nil => simp [joinSep]
          | cons y ys => simp [joinSep]
      | cons z zs =>
          have e1 : joinSep (x :: z :: zs ++ ys) = x ++ Separator :: joinSep (z :: zs ++ ys) := rfl
          rw [e1, ih]
          by_cases hy : ys = [] <;> simp [joinSep, hy]

/-! ### the buffer of `Clean` -/

theorem cleanLoop_nil (rooted : Bool) (fuel : Nat) (out : Bytes) (dd : Nat) :
    cleanLoop rooted fuel [] out dd = out := by
  cases fuel <;> rfl

theorem backtrack_sep (pre l : Bytes) (dd : Nat) (hl : Separator ∉ l) (hdd : dd ≤ pre.length) :
    ∀ i, i ≤ l.length → backtrackLoop (pre ++ Separator :: l) dd (pre.length + i) = pre.length := by
  intro i
  induction i with
  | zero =>
      intro _
      cases hp : pre.length with
      | zero => rfl
      | succ w =>
          have hg : (pre ++ Separator :: l).getD (w + 1) 0 = Separator := by
            rw [← hp, List.getD_append_right _ _ _ _ (Nat.le_refl _)]
            simp
          rw [backtrackLoop, if_neg (fun h => h.2 hg)]
  | succ i ih =>
      intro hi
      have hg : (pre ++ Separator :: l).getD (pre.length + i + 1) 0 ≠ Separator := by
        rw [List.getD_append_right _ _ _ _ (by omega)]
        have e : pre.length + i + 1 - pre.length = i + 1 := by omega
        rw [e, List.getD_cons_succ, List.getD_eq_getElem _ _ (by omega)]
        intro h
        exact hl (h ▸ List.getElem_mem _)
      have e : pre.length + (i + 1) = (pre.length + i) + 1 := by omega
      rw [e, backtrackLoop, if_pos ⟨by omega, hg⟩]
      exact ih (by omega)

theorem backtrack_nosep (pre l : Bytes) (hl : Separator ∉ l) :
    ∀ i, i < l.length → backtrackLoop (pre ++ l) pre.length (pre.length + i) = pre.length := by
  intro i
  induction i with
  | zero =>
      intro _
      cases hp : pre.length with
      | zero => rfl
      | succ w => simp [backtrackLoop]
  | succ i ih =>
      intro hi
      have hg : (pre ++ l).getD (pre.length + i + 1) 0 ≠ Separator := by
        rw [List.getD_append_right _ _ _ _ (by omega)]
        have e : pre.length + i + 1 - pre.length = i + 1 := by omega
        rw [e, List.getD_eq_getElem _ _ (by omega)]
        intro h
        exact hl (h ▸ List.getElem_mem _)
      have e : pre.length + (i + 1) = (pre.length + i) + 1 := by omega
      rw [e, backtrackLoop, if_pos ⟨by omega, hg⟩]
      exact ih (by omega)

theorem elems_nonempty (j : Nat) (ns : List Bytes) (h : ∀ n ∈ ns, NormalName n) :
    ∀ x ∈ List.replicate j [46, 46] ++ ns, x ≠ [] := by
  intro x hx
  rw [List.mem_append] at hx
  rcases hx with hx | hx
  · rw [List.eq_of_mem_replicate hx]; simp
  · exact (h x hx).1

theorem render_push (rooted : Bool) (j : Nat) (ns : List Bytes) (e : Bytes)
    (h : ∀ n ∈ ns, NormalName n) :
    (if (rooted = true ∧ (renderState rooted (j, ns)).length ≠ 1) ∨
        ((!rooted) = true ∧ (renderState rooted (j, ns)).length ≠ 0)
      then renderState rooted (j, ns) ++ [Separator] else renderState rooted (j, ns)) ++ e
      = renderState rooted (j, ns ++ [e]) := by
  have hj := joinSep_eq_nil _ (elems_nonempty j ns h)
  unfold renderState
  simp only
  rw [← List.append_assoc (List.replicate j [46, 46]), joinSep_append_singleton]
  by_cases hx : List.replicate j [46, 46] ++ ns = []
  · have h0 : joinSep (List.replicate j [46, 46] ++ ns) = [] := hj.mpr hx
    cases rooted <;> simp [hx, joinSep]
  · have h0 : joinSep (List.replicate j [46, 46] ++ ns) ≠ [] := fun h => hx (hj.mp h)
    have hl : (joinSep (List.replicate j [46, 46] ++ ns)).length ≠ 0 := by
      intro h; exact h0 (List.length_eq_zero.mp h)
    cases rooted <;> simp [hx, h0, hl]

theorem render_dotdot (j : Nat) :
    (if (renderState false (j, [])).length > 0 then renderState false (j, []) ++ [Separator]
      else renderState false (j, [])) ++ [46, 46]
      = renderState false (j + 1, []) := by
  have hj := joinSep_eq_nil (List.replicate j [46, 46]) (by
    intro x hx; rw [List.eq_of_mem_replicate hx]; simp)
  unfold renderState
  simp only [Bool.false_eq_true, if_false, List.nil_append, List.append_nil]
  rw [List.replicate_succ', joinSep_append_singleton]
  by_cases hx : List.replicate j [46, 46] = []
  · simp [hx, joinSep]
  · have h0 : joinSep (List.replicate j [46, 46]) ≠ [] := fun h => hx (hj.mp h)
    have hl : 0 < (joinSep (List.replicate j [46, 46])).length := List.length_pos.mpr h0
    simp [hx, hl]

theorem render_length_le (rooted : Bool) (j : Nat) (ns : List Bytes) :
    (renderState rooted (j, [])).length ≤ (renderState rooted (j, ns)).length := by
  unfold renderState
  simp only [List.append_nil, List.length_append]
  rw [joinSep_append]
  by_cases h1 : List.replicate j [46, 46] = []
  · simp [h1, joinSep]
  · by_cases h2 : ns = []
    · simp [h1, h2]
    · simp only [h1, h2, if_false, List.length_append, List.length_cons]; omega

theorem render_length_lt (rooted : Bool) (j : Nat) (ns : List Bytes)
    (h : ∀ n ∈ ns, NormalName n) :
    (renderState rooted (j, ns)).length > (renderState rooted (j, [])).length ↔ ns ≠ [] := by
  constructor
  · intro hlt hn
    rw [hn] at hlt
    omega
  · intro hne
    have hjn : joinSep ns ≠ [] := fun h0 =>
      hne ((joinSep_eq_nil ns (fun n hn => (h n hn).1)).mp h0)
    have hl : 0 < (joinSep ns).length := List.length_pos.mpr hjn
    unfold renderState
    simp only [List.append_nil, List.length_append]
    rw [joinSep_append]
    by_cases h1 : List.replicate j [46, 46] = []
    · simp only [h1, if_true, joinSep, List.length_nil]; omega
    · simp only [h1, hne, if_false, List.length_append, List.length_cons]; omega

theorem render_concat (rooted : Bool) (j : Nat) (ms : List Bytes) (l : Bytes) :
    renderState rooted (j, ms ++ [l])
      = if List.replicate j [46, 46] ++ ms = [] then renderState rooted (j, ms) ++ l
        else renderState rooted (j, ms) ++ Separator :: l := by
  unfold renderState
  simp only
  rw [← List.append_assoc (List.replicate j [46, 46]), joinSep_append_singleton]
  by_cases h : List.replicate j [46, 46] ++ ms = []
  · rw [if_pos h, if_pos h, h]; simp [joinSep]
  · rw [if_neg h, if_neg h]; simp

theorem render_pop (rooted : Bool) (j : Nat) (ms : List Bytes) (l : Bytes)
    (hl : NormalName l) :
    (renderState rooted (j, ms ++ [l])).take
        (backtrackLoop (renderState rooted (j, ms ++ [l])) (renderState rooted (j, [])).length
          ((renderState rooted (j, ms ++ [l])).length - 1))
      = renderState rooted (j, ms) := by
  have hlen : 0 < l.length := List.length_pos.mpr hl.1
  have hdd := render_length_le rooted j ms
  have e := render_concat rooted j ms l
  by_cases hx : List.replicate j [46, 46] ++ ms = []
  · have hms : ms = [] := (List.append_eq_nil.mp hx).2
    rw [e, if_pos hx]
    subst hms
    have hi : (renderState rooted (j, []) ++ l).length - 1
        = (renderState rooted (j, [])).length + (l.length - 1) := by
      rw [List.length_append]; omega
    rw [hi, backtrack_nosep _ l hl.2.1 _ (by omega)]
    simp
  · rw [e, if_neg hx]
    have hi : (renderState rooted (j, ms) ++ Separator :: l).length - 1
        = (renderState rooted (j, ms)).length + l.length := by
      rw [List.length_append, List.length_cons]; omega
    rw [hi, backtrack_sep _ l _ hl.2.1 hdd _ (Nat.le_refl _)]
    simp

theorem stepElem_nil (rooted : Bool) (st : Nat × List Bytes) : stepElem rooted st [] = st := by
  simp [stepElem]

theorem foldl_split (rooted : Bool) (st : Nat × List Bytes) (e t : Bytes) (he : Separator ∉ e)
    (ht : t = [] ∨ t.head? = some Separator) :
    List.foldl (stepElem rooted) st (splitSep (e ++ t))
      = List.foldl (stepElem rooted) (stepElem rooted st e) (splitSep t) := by
  rcases ht with ht | ht
  · subst ht
    simp [splitSep_single e he, splitSep, stepElem_nil]
  · cases t with
    | nil => simp at ht
    | cons c t1 =>
        simp only [List.head?_cons, Option.some.injEq] at ht
        subst ht
        rw [splitSep_append e t1 he, splitSep_sep_cons]
        simp [stepElem_nil]

theorem takeWhile_eq_nil_cases (t : Bytes) (h : t.takeWhile (fun x => decide (x ≠ Separator)) = []) :
    t = [] ∨ t.head? = some Separator := by
  cases t with
  | nil => left; rfl
  | cons a t1 =>
      right
      by_cases ha : a = Separator
      · simp [ha]
      · simp [List.takeWhile_cons, ha] at h

theorem stepElem_dot (rooted : Bool) (st : Nat × List Bytes) : stepElem rooted st [46] = st := by
  simp [stepElem]

theorem stepElem_normal (rooted : Bool) (st : Nat × List Bytes) (e : Bytes) (he : NormalName e) :
    stepElem rooted st e = (st.1, st.2 ++ [e]) := by
  simp [stepElem, he.1, he.2.2.1, he.2.2.2]

theorem cleanLoop_sim (rooted : Bool) : ∀ (fuel : Nat) (s : Bytes) (j : Nat) (ns : List Bytes),
    s.length ≤ fuel → ValidState rooted (j, ns) →
    cleanLoop rooted fuel s (renderState rooted (j, ns)) (renderState rooted (j, [])).length
      = renderState rooted (List.foldl (stepElem rooted) (j, ns) (splitSep s)) := by
  intro fuel
  induction fuel with
  | zero =>
      intro s j ns hs _
      have : s = [] := List.length_eq_zero.mp (by omega)
      subst this
      simp [cleanLoop, splitSep, stepElem_nil]
  | succ fuel ih =>
      intro s j ns hs hv
      cases s with
      | nil => simp [cleanLoop, splitSep, stepElem_nil]
      | cons c t =>
          simp only [List.length_cons] at hs
          have htl : t.length ≤ fuel := by omega
          rw [cleanLoop]
          by_cases h1 : c = Separator
          · rw [if_pos h1, ih t j ns htl hv, h1, splitSep_sep_cons]
            simp [stepElem_nil]
          · rw [if_neg h1]
            by_cases h2 : c = 46 ∧ (t = [] ∨ t.head? = some Separator)
            · rw [if_pos h2, ih t j ns htl hv]
              have e : c :: t = [46] ++ t := by rw [h2.1]; rfl
              rw [e, foldl_split rooted (j, ns) [46] t (by decide) h2.2, stepElem_dot]
            · rw [if_neg h2]
              by_cases h3 : c = 46 ∧ t.head? = some 46 ∧
                  (t.tail = [] ∨ t.tail.head? = some Separator)
              · rw [if_pos h3]
                obtain ⟨hc, hh, htt⟩ := h3
                cases t with
                | nil => simp at hh
                | cons c2 t2 =>
                    simp only [List.head?_cons, Option.some.injEq] at hh
                    simp only [List.tail_cons] at htt ⊢
                    simp only [List.length_cons] at htl
                    have e : c :: c2 :: t2 = [46, 46] ++ t2 := by rw [hc, hh]; rfl
                    rw [e, foldl_split rooted (j, ns) [46, 46] t2 (by decide) htt]
                    by_cases hns : ns = []
                    · subst hns
                      rw [if_neg (by omega)]
                      cases rooted with
                      | true =>
                          simp only [Bool.not_true, Bool.false_eq_true, if_false]
                          rw [ih t2 j [] (by omega) hv]
                          simp [stepElem]
                      | false =>
                          simp only [Bool.not_false, if_true]
                          rw [render_dotdot j]
                          have hv2 : ValidState false (j + 1, []) :=
                            ⟨fun h => absurd h (by simp), by simp⟩
                          rw [ih t2 (j + 1) [] (by omega) hv2]
                          simp [stepElem]
                    · rw [if_pos ((render_length_lt rooted j ns hv.2).mpr hns)]
                      obtain ⟨ms, l, hml⟩ : ∃ ms l, ns = ms ++ [l] :=
                        ⟨ns.dropLast, ns.getLast hns, (List.dropLast_append_getLast hns).symm⟩
                      subst hml
                      have hl : NormalName l := hv.2 l (by simp)
                      have hv2 : ValidState rooted (j, ms) :=
                        ⟨hv.1, fun n hn => hv.2 n (by simp [hn])⟩
                      rw [render_pop rooted j ms l hl, ih t2 j ms (by omega) hv2]
                      simp [stepElem]
              · rw [if_neg h3]
                set e := (c :: t).takeWhile (fun x => decide (x ≠ Separator)) with he
                set rest := (c :: t).dropWhile (fun x => decide (x ≠ Separator)) with hrest
                have hsplit : c :: t = e ++ rest := (List.takeWhile_append_dropWhile _ _).symm
                have hsep : Separator ∉ e := by
                  intro hm
                  have := List.mem_takeWhile_imp hm
                  simp at this
                have hrest2 : rest = [] ∨ rest.head? = some Separator := by
                  cases hr : rest with
                  | nil => left; rfl
                  | cons a r1 =>
                      right
                      have := List.head?_dropWhile_not (fun x => decide (x ≠ Separator)) (c :: t)
                      rw [← hrest, hr] at this
                      simpa using this
                have hec : e = c :: t.takeWhile (fun x => decide (x ≠ Separator)) := by
                  rw [he, List.takeWhile_cons]; simp [h1]
                have hnormal : NormalName e := by
                  refine ⟨by rw [hec]; simp, hsep, ?_, ?_⟩
                  · intro h46
                    rw [hec] at h46
                    simp only [List.cons.injEq] at h46
                    exact h2 ⟨h46.1, takeWhile_eq_nil_cases t h46.2⟩
                  · intro h4646
                    rw [hec] at h4646
                    simp only [List.cons.injEq] at h4646
                    obtain ⟨hc, ht⟩ := h4646
                    cases t with
                    | nil => simp at ht
                    | cons c2 t2 =>
                        by_cases hc2 : c2 = Separator
                        · simp [List.takeWhile_cons, hc2] at ht
                        · simp only [List.takeWhile_cons, ne_eq, hc2, not_false_eq_true,
                            decide_True, if_true, List.cons.injEq] at ht
                          exact h3 ⟨hc, by simp [ht.1], by
                            simpa using takeWhile_eq_nil_cases t2 ht.2⟩
                have hlen : rest.length ≤ fuel := by
                  have : (c :: t).length = e.length + rest.length := by
                    rw [hsplit, List.length_append]
                  have he0 : 0 < e.length := List.length_pos.mpr hnormal.1
                  simp only [List.length_cons] at this
                  omega
                have hv2 : ValidState rooted (j, ns ++ [e]) :=
                  ⟨hv.1, fun n hn => by
                    rw [List.mem_append, List.mem_singleton] at hn
                    rcases hn with hn | hn
                    · exact hv.2 n hn
                    · rw [hn]; exact hnormal⟩
                dsimp only
                rw [render_push rooted j ns e hv.2, ih rest j (ns ++ [e]) hlen hv2, hsplit,
                  foldl_split rooted (j, ns) e rest hsep hrest2, stepElem_normal rooted _ e hnormal]

theorem stepElem_valid (rooted : Bool) (st : Nat × List Bytes) (e : Bytes)
    (hv : ValidState rooted st) (he : Separator ∉ e) : ValidState rooted (stepElem rooted st e) := by
  unfold stepElem
  by_cases h1 : e = [] ∨ e = [46]
  · rw [if_pos h1]; exact hv
  · rw [if_neg h1]
    by_cases h2 : e = [46, 46]
    · rw [if_pos h2]
      by_cases h3 : st.2 ≠ []
      · rw [if_pos h3]
        exact ⟨hv.1, fun n hn => hv.2 n (List.mem_of_mem_dropLast hn)⟩
      · rw [if_neg h3]
        cases rooted with
        | true => exact hv
        | false => exact ⟨fun h => absurd h (by simp), hv.2⟩
    · rw [if_neg h2]
      refine ⟨hv.1, fun n hn => ?_⟩
      rw [List.mem_append, List.mem_singleton] at hn
      rcases hn with hn | hn
      · exact hv.2 n hn
      · rw [hn]
        exact ⟨fun h => h1 (Or.inl h), he, fun h => h1 (Or.inr h), h2⟩

theorem foldl_stepElem_valid (rooted : Bool) (es : List Bytes) :
    ∀ st, ValidState rooted st → (∀ e ∈ es, Separator ∉ e) →
      ValidState rooted (List.foldl (stepElem rooted) st es) := by
  induction es with
  | nil => intro st hv _; exact hv
  | cons e es ih =>
      intro st hv he
      exact ih _ (stepElem_valid rooted st e hv (he e (by simp)))
        (fun x hx => he x (by simp [hx]))

theorem normPath_valid (rooted : Bool) (s : Bytes) : ValidState rooted (normPath rooted s) :=
  foldl_stepElem_valid rooted _ _ ⟨fun _ => rfl, by simp⟩ (mem_splitSep_no_sep s)

theorem foldl_stepElem_names (rooted : Bool) (ns : List Bytes) :
    ∀ st : Nat × List Bytes, (∀ n ∈ ns, NormalName n) →
      List.foldl (stepElem rooted) st ns = (st.1, st.2 ++ ns) := by
  induction ns with
  | nil => intro st _; simp
  | cons n ns ih =>
      intro st h
      rw [List.foldl_cons, stepElem_normal rooted st n (h n (by simp)),
        ih _ (fun x hx => h x (by simp [hx]))]
      simp

theorem foldl_stepElem_dotdots (j : Nat) :
    ∀ i, List.foldl (stepElem false) (i, []) (List.replicate j [46, 46]) = (i + j, []) := by
  induction j with
  | zero => intro i; simp
  | succ j ih =>
      intro i
      rw [List.replicate_succ, List.foldl_cons]
      have : stepElem false (i, []) [46, 46] = (i + 1, []) := by simp [stepElem]
      rw [this, ih]
      congr 1
      omega

theorem Clean_eq (s : Bytes) (hs : s ≠ []) :
    Clean s = if renderState (isRooted s) (normPath (isRooted s) s) = [] then [46]
      else renderState (isRooted s) (normPath (isRooted s) s) := by
  have key : (if isRooted s = true then cleanLoop (isRooted s) s.length s.tail [Separator] 1
      else cleanLoop (isRooted s) s.length s [] 0)
      = renderState (isRooted s) (normPath (isRooted s) s) := by
    cases hr : isRooted s with
    | true =>
        cases s with
        | nil => exact absurd rfl hs
        | cons c t =>
            have hc : c = Separator := by simpa [isRooted] using hr
            subst hc
            have h0 : renderState true (0, []) = [Separator] := by simp [renderState, joinSep]
            have := cleanLoop_sim true (Separator :: t).length t 0 [] (by simp)
              ⟨fun _ => rfl, by simp⟩
            rw [h0] at this
            simp only [if_true, List.tail_cons, List.length_singleton] at this ⊢
            rw [this, normPath, splitSep_sep_cons]
            simp [stepElem_nil]
    | false =>
        have h0 : renderState false (0, []) = [] := by simp [renderState, joinSep]
        have := cleanLoop_sim false s.length s 0 [] (Nat.le_refl _)
          ⟨fun h => absurd h (by simp), by simp⟩
        rw [h0] at this
        simp only [Bool.false_eq_true, if_false, List.length_nil] at this ⊢
        rw [this, normPath]
  unfold Clean
  rw [if_neg hs]
  have hr : decide (s.head? = some Separator) = isRooted s := rfl
  simp only [hr, key, List.length_eq_zero]

theorem elems_no_sep (j : Nat) (ns : List Bytes) (h : ∀ n ∈ ns, NormalName n) :
    ∀ x ∈ List.replicate j [46, 46] ++ ns, Separator ∉ x := by
  intro x hx
  rw [List.mem_append] at hx
  rcases hx with hx | hx
  · rw [List.eq_of_mem_replicate hx]; decide
  · exact (h x hx).2.1

theorem head_joinSep (xs : List Bytes) (hne : xs ≠ []) (h1 : ∀ x ∈ xs, x ≠ [])
    (h2 : ∀ x ∈ xs, Separator ∉ x) : (joinSep xs).head? ≠ some Separator := by
  cases xs with
  | nil => exact absurd rfl hne
  | cons x xs =>
      have hx1 := h1 x (by simp)
      have hx2 := h2 x (by simp)
      cases x with
      | nil => exact absurd rfl hx1
      | cons a x1 =>
          have ha : a ≠ Separator := fun h => hx2 (by simp [h])
          cases xs with
          | nil => simpa [joinSep] using ha
          | cons y ys => simpa [joinSep] using ha

theorem render_eq_nil (rooted : Bool) (st : Nat × List Bytes) (hv : ValidState rooted st) :
    renderState rooted st = [] ↔ rooted = false ∧ st = (0, []) := by
  obtain ⟨j, ns⟩ := st
  have hj := joinSep_eq_nil _ (elems_nonempty j ns hv.2)
  unfold renderState
  cases rooted with
  | true => simp
  | false =>
      simp only [Bool.false_eq_true, if_false, List.nil_append, true_and, Prod.mk.injEq]
      rw [hj, List.append_eq_nil]
      constructor
      · rintro ⟨h1, h2⟩
        exact ⟨by simpa using h1, h2⟩
      · rintro ⟨h1, h2⟩
        exact ⟨by simp [h1], h2⟩

theorem isRooted_render (rooted : Bool) (st : Nat × List Bytes) (hv : ValidState rooted st)
    (hne : renderState rooted st ≠ []) : isRooted (renderState rooted st) = rooted := by
  obtain ⟨j, ns⟩ := st
  cases rooted with
  | true => simp [isRooted, renderState]
  | false =>
      have hx : List.replicate j [46, 46] ++ ns ≠ [] := by
        intro h
        apply hne
        simp [renderState, h, joinSep]
      have := head_joinSep _ hx (elems_nonempty j ns hv.2) (elems_no_sep j ns hv.2)
      simpa [isRooted, renderState] using this

theorem normPath_render (rooted : Bool) (st : Nat × List Bytes) (hv : ValidState rooted st)
    (hne : renderState rooted st ≠ []) : normPath rooted (renderState rooted st) = st := by
  obtain ⟨j, ns⟩ := st
  cases rooted with
  | true =>
      have hj : j = 0 := hv.1 rfl
      subst hj
      simp only [normPath, renderState, if_true, List.replicate_zero, List.nil_append,
        List.singleton_append, splitSep_sep_cons, List.foldl_cons, stepElem_nil]
      by_cases hns : ns = []
      · subst hns
        simp [joinSep, splitSep, stepElem_nil]
      · rw [splitSep_joinSep ns hns (fun x hx => (hv.2 x hx).2.1),
          foldl_stepElem_names true ns (0, []) hv.2]
        simp
  | false =>
      have hx : List.replicate j [46, 46] ++ ns ≠ [] := by
        intro h
        apply hne
        simp [renderState, h, joinSep]
      simp only [normPath, renderState, Bool.false_eq_true, if_false, List.nil_append]
      rw [splitSep_joinSep _ hx (elems_no_sep j ns hv.2), List.foldl_append,
        foldl_stepElem_dotdots j 0, foldl_stepElem_names false ns _ hv.2]
      simp

theorem Clean_render (rooted : Bool) (st : Nat × List Bytes) (hv : ValidState rooted st)
    (hne : renderState rooted st ≠ []) : Clean (renderState rooted st) = renderState rooted st := by
  rw [Clean_eq _ hne, isRooted_render rooted st hv hne, normPath_render rooted st hv hne,
    if_neg hne]

theorem render_push_ne_nil (rooted : Bool) (st : Nat × List Bytes) (n : Bytes) (hn : n ≠ []) :
    renderState rooted (st.1, st.2 ++ [n]) ≠ [] := by
  rw [render_concat]
  split <;> simp [hn]

theorem Join_eq (p n : Bytes) (hp : p ≠ []) (hn : NormalName n) :
    Join p n = renderState (isRooted p)
      ((normPath (isRooted p) p).1, (normPath (isRooted p) p).2 ++ [n]) := by
  have hne : p ++ [Separator] ++ n ≠ [] := by simp [hp]
  have hr : isRooted (p ++ [Separator] ++ n) = isRooted p := by
    cases p with
    | nil => exact absurd rfl hp
    | cons c t => simp [isRooted]
  have hnorm : normPath (isRooted p) (p ++ [Separator] ++ n)
      = ((normPath (isRooted p) p).1, (normPath (isRooted p) p).2 ++ [n]) := by
    have e : p ++ [Separator] ++ n = p ++ Separator :: n := by simp
    rw [normPath, e, splitSep_general_append, splitSep_single n hn.2.1, List.foldl_append]
    simp only [List.foldl_cons, List.foldl_nil]
    rw [stepElem_normal _ _ n hn]
    rfl
  unfold Join
  rw [if_pos hp, Clean_eq _ hne, hr, hnorm, if_neg (render_push_ne_nil _ _ n hn.1)]

theorem foldl_Join (comps : List Bytes) : ∀ (p : Bytes) (rooted : Bool) (st : Nat × List Bytes),
    p ≠ [] → isRooted p = rooted → normPath rooted p = st → (∀ n ∈ comps, NormalName n) →
    comps ≠ [] → comps.foldl Join p = renderState rooted (st.1, st.2 ++ comps) := by
  induction comps with
  | nil => intro p rooted st _ _ _ _ h; exact absurd rfl h
  | cons n rest ih =>
      intro p rooted st hp hr hst hn _
      have hn1 := hn n (by simp)
      have hv : ValidState rooted (st.1, st.2 ++ [n]) := by
        have hv0 := normPath_valid rooted p
        rw [hst] at hv0
        refine ⟨hv0.1, fun x hx => ?_⟩
        rw [List.mem_append, List.mem_singleton] at hx
        rcases hx with hx | hx
        · exact hv0.2 x hx
        · rw [hx]; exact hn1
      have hne := render_push_ne_nil rooted st n hn1.1
      have hj : Join p n = renderState rooted (st.1, st.2 ++ [n]) := by
        rw [Join_eq p n hp hn1, hr, hst]
      rw [List.foldl_cons, hj]
      by_cases hrest : rest = []
      · subst hrest; rfl
      · rw [ih _ rooted (st.1, st.2 ++ [n]) hne (isRooted_render rooted _ hv hne)
          (normPath_render rooted _ hv hne) (fun x hx => hn x (by simp [hx])) hrest]
        simp

/-! ### `Rel` -/

theorem takeWhile_no_sep (e t : Bytes) (he : Separator ∉ e) :
    (e ++ Separator :: t).takeWhile (fun x => decide (x ≠ Separator)) = e ∧
      (e ++ Separator :: t).dropWhile (fun x => decide (x ≠ Separator)) = Separator :: t := by
  induction e with
  | nil => simp [List.takeWhile_cons, List.dropWhile_cons]
  | cons c e ih =>
      have hc : c ≠ Separator := fun h => he (by simp [h])
      have he1 : Separator ∉ e := fun h => he (by simp [h])
      have hd : decide (c ≠ Separator) = true := by simpa using hc
      rw [List.cons_append, List.takeWhile_cons, List.dropWhile_cons, if_pos hd, if_pos hd,
        (ih he1).1, (ih he1).2]
      exact ⟨rfl, rfl⟩

theorem takeWhile_no_sep_end (e : Bytes) (he : Separator ∉ e) :
    e.takeWhile (fun x => decide (x ≠ Separator)) = e ∧
      e.dropWhile (fun x => decide (x ≠ Separator)) = [] := by
  induction e with
  | nil => simp
  | cons c e ih =>
      have hc : c ≠ Separator := fun h => he (by simp [h])
      have he1 : Separator ∉ e := fun h => he (by simp [h])
      have hd : decide (c ≠ Separator) = true := by simpa using hc
      rw [List.takeWhile_cons, List.dropWhile_cons, if_pos hd, if_pos hd, (ih he1).1, (ih he1).2]
      exact ⟨rfl, rfl⟩

theorem relLoop_nil (fuel : Nat) (t : Bytes) : relLoop fuel [] t = ([], [], t) := by
  cases fuel <;> simp [relLoop]

theorem relLoop_extension (xs : List Bytes) : ∀ (fuel : Nat) (rest : Bytes), xs ≠ [] →
    (∀ x ∈ xs, x ≠ []) → (∀ x ∈ xs, Separator ∉ x) → xs.length ≤ fuel →
    relLoop fuel (joinSep xs) (joinSep xs ++ Separator :: rest) = ([], [], rest) := by
  induction xs with
  | nil => intro _ _ h; exact absurd rfl h
  | cons x xs ih =>
      intro fuel rest _ h1 h2 hf
      have hx1 := h1 x (by simp)
      have hx2 := h2 x (by simp)
      cases fuel with
      | zero => simp at hf
      | succ fuel =>
          cases xs with
          | nil =>
              simp only [joinSep]
              rw [relLoop, if_pos ⟨hx1, by simp⟩]
              simp only [(takeWhile_no_sep x rest hx2).1, (takeWhile_no_sep x rest hx2).2,
                (takeWhile_no_sep_end x hx2).1, (takeWhile_no_sep_end x hx2).2, ne_eq,
                not_true_eq_false, if_false, List.tail_nil, List.tail_cons]
              exact relLoop_nil fuel rest
          | cons y ys =>
              have e1 : joinSep (x :: y :: ys) = x ++ Separator :: joinSep (y :: ys) := rfl
              have e2 : joinSep (x :: y :: ys) ++ Separator :: rest
                  = x ++ Separator :: (joinSep (y :: ys) ++ Separator :: rest) := by
                rw [e1]; simp
              rw [e2, e1, relLoop, if_pos ⟨by simp, by simp⟩]
              simp only [(takeWhile_no_sep x _ hx2).1, (takeWhile_no_sep x _ hx2).2, ne_eq,
                not_true_eq_false, if_false, List.tail_cons]
              exact ih fuel rest (by simp) (fun z hz => h1 z (by simp [hz]))
                (fun z hz => h2 z (by simp [hz])) (by simp at hf ⊢; omega)

theorem length_joinSep_ge (xs : List Bytes) (h1 : ∀ x ∈ xs, x ≠ []) :
    xs.length ≤ (joinSep xs).length := by
  induction xs with
  | nil => simp
  | cons x xs ih =>
      have hx : 0 < x.length := List.length_pos.mpr (h1 x (by simp))
      cases xs with
      | nil => simp [joinSep]; omega
      | cons y ys =>
          have := ih (fun z hz => h1 z (by simp [hz]))
          simp only [joinSep, List.length_append, List.length_cons] at this ⊢
          omega

theorem joinSep_ne_dot (xs : List Bytes) (h1 : ∀ x ∈ xs, x ≠ []) (h2 : ∀ x ∈ xs, x ≠ [46]) :
    joinSep xs ≠ [46] := by
  cases xs with
  | nil => simp [joinSep]
  | cons x xs =>
      cases xs with
      | nil => simpa [joinSep] using h2 x (by simp)
      | cons y ys =>
          intro h
          have hx : 0 < x.length := List.length_pos.mpr (h1 x (by simp))
          have := congrArg List.length h
          simp only [joinSep, List.length_append, List.length_cons, List.length_nil] at this
          omega

theorem elems_ne_dot (j : Nat) (ns : List Bytes) (h : ∀ n ∈ ns, NormalName n) :
    ∀ x ∈ List.replicate j [46, 46] ++ ns, x ≠ [46] := by
  intro x hx
  rw [List.mem_append] at hx
  rcases hx with hx | hx
  · rw [List.eq_of_mem_replicate hx]; decide
  · exact (h x hx).2.2.1

theorem Rel_of_lists (d p base targ rest : Bytes) (hb : Clean d = base) (ht : Clean p = targ)
    (hne : targ ≠ base)
    (hhead : decide ((if base = [46] then [] else base).head? = some Separator)
      = decide (targ.head? = some Separator))
    (hloop : relLoop ((if base = [46] then [] else base).length + 1)
      (if base = [46] then [] else base) targ = ([], [], rest)) :
    Rel d p = some rest := by
  unfold Rel
  simp only [hb, ht, if_neg hne, hhead, hloop]
  simp

theorem Rel_walkPath (d : Bytes) (comps : List Bytes) (hd : d ≠ []) (hc : comps ≠ [])
    (hn : ∀ n ∈ comps, NormalName n) : Rel d (comps.foldl Join d) = some (joinSep comps) := by
  set rooted := isRooted d with hrooted
  obtain ⟨j, ns, hst⟩ : ∃ j ns, normPath rooted d = (j, ns) := ⟨_, _, rfl⟩
  have hv : ValidState rooted (j, ns) := hst ▸ normPath_valid rooted d
  have hv2 : ValidState rooted (j, ns ++ comps) :=
    ⟨hv.1, fun x hx => by
      rw [List.mem_append] at hx
      rcases hx with hx | hx
      · exact hv.2 x hx
      · exact hn x hx⟩
  have hcj : joinSep comps ≠ [] := fun h =>
    hc ((joinSep_eq_nil comps (fun n h1 => (hn n h1).1)).mp h)
  have hP : comps.foldl Join d = renderState rooted (j, ns ++ comps) :=
    foldl_Join comps d rooted (j, ns) hd rfl hst hn hc
  have htarg : renderState rooted (j, ns ++ comps)
      = (if rooted then [Separator] else []) ++
        (if List.replicate j [46, 46] ++ ns = [] then joinSep comps
          else joinSep (List.replicate j [46, 46] ++ ns) ++ Separator :: joinSep comps) := by
    unfold renderState
    simp only
    rw [← List.append_assoc (List.replicate j [46, 46]), joinSep_append, if_neg hc]
  have hPne : renderState rooted (j, ns ++ comps) ≠ [] := by
    rw [htarg]
    by_cases hX : List.replicate j [46, 46] ++ ns = []
    · rw [if_pos hX]; simp [hcj]
    · rw [if_neg hX]; simp
  have hCP : Clean (comps.foldl Join d) = renderState rooted (j, ns ++ comps) := by
    rw [hP]; exact Clean_render rooted _ hv2 hPne
  have hCd : Clean d = if renderState rooted (j, ns) = [] then [46]
      else renderState rooted (j, ns) := by
    rw [Clean_eq d hd, ← hrooted, hst]
  have hX1 := elems_nonempty j ns hv.2
  have hX2 := elems_no_sep j ns hv.2
  have hhc : (joinSep comps).head? ≠ some Separator :=
    head_joinSep comps hc (fun n h1 => (hn n h1).1) (fun n h1 => (hn n h1).2.1)
  by_cases hX : List.replicate j [46, 46] ++ ns = []
  · -- the root cleans to "." or "/"
    have hjX : joinSep (List.replicate j [46, 46] ++ ns) = [] := by rw [hX]; rfl
    cases hr : rooted with
    | false =>
        have ho : renderState rooted (j, ns) = [] := by
          simp [renderState, hr, hjX]
        have ht2 : renderState rooted (j, ns ++ comps) = joinSep comps := by
          rw [htarg, if_pos hX, hr]; simp
        rw [ho, if_pos rfl] at hCd
        rw [ht2] at hCP
        refine Rel_of_lists d _ [46] (joinSep comps) (joinSep comps) hCd hCP
          (joinSep_ne_dot comps (fun n h1 => (hn n h1).1) (fun n h1 => (hn n h1).2.2.1)) ?_ ?_
        · simpa using hhc
        · simp [relLoop_nil]
    | true =>
        have ho : renderState rooted (j, ns) = [Separator] := by
          simp [renderState, hr, hjX]
        have ht2 : renderState rooted (j, ns ++ comps) = Separator :: joinSep comps := by
          rw [htarg, if_pos hX, hr]; simp
        rw [ho, if_neg (by simp)] at hCd
        rw [ht2] at hCP
        refine Rel_of_lists d _ [Separator] (Separator :: joinSep comps) (joinSep comps)
          hCd hCP (by simp [hcj]) (by simp [Separator]) ?_
        have h46 : ([Separator] : Bytes) ≠ [46] := by decide
        rw [if_neg h46]
        have hnn : joinSep comps ≠ [] := hcj
        simp [relLoop, relLoop_nil, Separator]
  · have hjX : joinSep (List.replicate j [46, 46] ++ ns) ≠ [] := fun h =>
      hX ((joinSep_eq_nil _ hX1).mp h)
    have hfuel := length_joinSep_ge _ hX1
    have hloop := relLoop_extension (List.replicate j [46, 46] ++ ns)
    cases hr : rooted with
    | false =>
        have ho : renderState rooted (j, ns) = joinSep (List.replicate j [46, 46] ++ ns) := by
          simp [renderState, hr]
        have ht2 : renderState rooted (j, ns ++ comps)
            = joinSep (List.replicate j [46, 46] ++ ns) ++ Separator :: joinSep comps := by
          rw [htarg, if_neg hX, hr]; simp
        rw [ho, if_neg hjX] at hCd
        rw [ht2] at hCP
        have hdot := joinSep_ne_dot _ hX1 (elems_ne_dot j ns hv.2)
        refine Rel_of_lists d _ _ _ (joinSep comps) hCd hCP (by simp) ?_ ?_
        · rw [if_neg hdot]
          cases hq : joinSep (List.replicate j [46, 46] ++ ns) with
          | nil => exact absurd hq hjX
          | cons a q => simp
        · rw [if_neg hdot]
          exact hloop _ (joinSep comps) hX hX1 hX2 (by omega)
    | true =>
        have ho : renderState rooted (j, ns)
            = Separator :: joinSep (List.replicate j [46, 46] ++ ns) := by
          simp [renderState, hr]
        have ht2 : renderState rooted (j, ns ++ comps)
            = Separator :: (joinSep (List.replicate j [46, 46] ++ ns) ++
              Separator :: joinSep comps) := by
          rw [htarg, if_neg hX, hr]; simp
        rw [ho, if_neg (by simp)] at hCd
        rw [ht2] at hCP
        have hdot : Separator :: joinSep (List.replicate j [46, 46] ++ ns) ≠ [46] := by
          intro h
          simp only [List.cons.injEq] at h
          exact absurd h.1 (by decide)
        refine Rel_of_lists d _ _ _ (joinSep comps) hCd hCP (by simp) ?_ ?_
        · rw [if_neg hdot]; simp
        · rw [if_neg hdot, List.length_cons, relLoop, if_pos ⟨by simp, by simp⟩]
          have t1 : (Separator :: joinSep (List.replicate j [46, 46] ++ ns)).takeWhile
              (fun x => decide (x ≠ Separator)) = [] := by
            rw [List.takeWhile_cons]; simp
          have t2 : (Separator :: (joinSep (List.replicate j [46, 46] ++ ns) ++
              Separator :: joinSep comps)).takeWhile (fun x => decide (x ≠ Separator)) = [] := by
            rw [List.takeWhile_cons]; simp
          have d1 : (Separator :: joinSep (List.replicate j [46, 46] ++ ns)).dropWhile
              (fun x => decide (x ≠ Separator))
              = Separator :: joinSep (List.replicate j [46, 46] ++ ns) := by
            rw [List.dropWhile_cons]; simp
          have d2 : (Separator :: (joinSep (List.replicate j [46, 46] ++ ns) ++
              Separator :: joinSep comps)).dropWhile (fun x => decide (x ≠ Separator))
              = Separator :: (joinSep (List.replicate j [46, 46] ++ ns) ++
                Separator :: joinSep comps) := by
            rw [List.dropWhile_cons]; simp
          simp only [t1, t2, d1, d2, ne_eq, not_true_eq_false, if_false, List.tail_cons]
          exact hloop _ (joinSep comps) hX hX1 hX2 (by omega)


/-! ## The directory walk -/

theorem walkFiles_rel (d : Bytes) (hd : d ≠ []) (es : Entries) :
    ∀ (names : List Bytes), WellFormed es → (∀ n ∈ names, NormalName n) →
      (walkFiles (names.foldl Join d) es).filterMap
          (fun e => (Rel d e.1).map (fun k => (k, e.2)))
        = (visibleFiles es).map (fun e => (joinSep (names ++ e.1), e.2)) := by
  induction es with
  | nil => intro names _ _; simp [walkFiles, visibleFiles]
  | noStat name rest ih =>
      intro names hwf hn
      simp only [walkFiles, visibleFiles]
      exact ih names hwf.2.2 hn
  | file name content rest ih =>
      intro names hwf hn
      have hrel : Rel d (Join (names.foldl Join d) name) = some (joinSep (names ++ [name])) := by
        have := Rel_walkPath d (names ++ [name]) hd (by simp) (fun n h => by
          rw [List.mem_append, List.mem_singleton] at h
          rcases h with h | h
          · exact hn n h
          · rw [h]; exact hwf.1)
        rwa [List.foldl_append] at this
      cases content with
      | none =>
          simp only [walkFiles, visibleFiles, List.nil_append]
          exact ih names hwf.2.2 hn
      | some c =>
          simp only [walkFiles, visibleFiles, List.singleton_append, List.filterMap_cons, hrel,
            Option.map_some', List.map_cons]
          rw [ih names hwf.2.2 hn]
  | dir name listable children rest ihc ihr =>
      intro names hwf hn
      cases listable with
      | false =>
          simp only [walkFiles, visibleFiles, Bool.false_eq_true, if_false, List.nil_append]
          exact ihr names hwf.2.2.2 hn
      | true =>
          have hn2 : ∀ n ∈ names ++ [name], NormalName n := fun n h => by
            rw [List.mem_append, List.mem_singleton] at h
            rcases h with h | h
            · exact hn n h
            · rw [h]; exact hwf.1
          have hc := ihc (names ++ [name]) hwf.2.2.1 hn2
          rw [List.foldl_append] at hc
          simp only [List.foldl_cons, List.foldl_nil] at hc
          simp only [walkFiles, visibleFiles, if_true, List.filterMap_append, List.map_append,
            List.map_map, hc, ihr names hwf.2.2.2 hn]
          congr 1
          apply List.map_congr_left
          intro e _
          simp

theorem visibleFiles_head (es : Entries) :
    ∀ e ∈ visibleFiles es, ∃ n t, e.1 = n :: t ∧ n ∈ entryNames es := by
  induction es with
  | nil => intro e he; simp [visibleFiles] at he
  | noStat name rest ih =>
      intro e he
      obtain ⟨n, t, h1, h2⟩ := ih e he
      exact ⟨n, t, h1, by simp [entryNames, h2]⟩
  | file name content rest ih =>
      intro e he
      simp only [visibleFiles, List.mem_append] at he
      rcases he with he | he
      · cases content with
        | none => simp at he
        | some c =>
            simp only [List.mem_singleton] at he
            exact ⟨name, [], by rw [he], by simp [entryNames]⟩
      · obtain ⟨n, t, h1, h2⟩ := ih e he
        exact ⟨n, t, h1, by simp [entryNames, h2]⟩
  | dir name listable children rest _ ihr =>
      intro e he
      simp only [visibleFiles, List.mem_append] at he
      rcases he with he | he
      · cases listable with
        | false => simp at he
        | true =>
            simp only [if_true, List.mem_map] at he
            obtain ⟨f, _, hf⟩ := he
            exact ⟨name, f.1, by rw [← hf], by simp [entryNames]⟩
      · obtain ⟨n, t, h1, h2⟩ := ihr e he
        exact ⟨n, t, h1, by simp [entryNames, h2]⟩

theorem visibleFiles_normal (es : Entries) (hwf : WellFormed es) :
    ∀ e ∈ visibleFiles es, e.1 ≠ [] ∧ ∀ n ∈ e.1, NormalName n := by
  induction es with
  | nil => intro e he; simp [visibleFiles] at he
  | noStat name rest ih => intro e he; exact ih hwf.2.2 e he
  | file name content rest ih =>
      intro e he
      simp only [visibleFiles, List.mem_append] at he
      rcases he with he | he
      · cases content with
        | none => simp at he
        | some c =>
            simp only [List.mem_singleton] at he
            rw [he]
            exact ⟨by simp, fun n hn => by
              simp only [List.mem_singleton] at hn
              rw [hn]; exact hwf.1⟩
      · exact ih hwf.2.2 e he
  | dir name listable children rest ihc ihr =>
      intro e he
      simp only [visibleFiles, List.mem_append] at he
      rcases he with he | he
      · cases listable with
        | false => simp at he
        | true =>
            simp only [if_true, List.mem_map] at he
            obtain ⟨f, hf1, hf⟩ := he
            rw [← hf]
            refine ⟨by simp, fun n hn => ?_⟩
            simp only [List.mem_cons] at hn
            rcases hn with hn | hn
            · rw [hn]; exact hwf.1
            · exact (ihc hwf.2.2.1 f hf1).2 n hn
      · exact ihr hwf.2.2.2 e he

theorem visibleFiles_nodup (es : Entries) (hwf : WellFormed es) :
    ((visibleFiles es).map Prod.fst).Nodup := by
  induction es with
  | nil => simp [visibleFiles]
  | noStat name rest ih => exact ih hwf.2.2
  | file name content rest ih =>
      have hrest := ih hwf.2.2
      cases content with
      | none => simpa [visibleFiles] using hrest
      | some c =>
          simp only [visibleFiles, List.singleton_append, List.map_cons, List.nodup_cons]
          refine ⟨?_, hrest⟩
          intro hm
          rw [List.mem_map] at hm
          obtain ⟨e, he, hee⟩ := hm
          obtain ⟨n, t, h1, h2⟩ := visibleFiles_head rest e he
          rw [h1] at hee
          simp only [List.cons.injEq] at hee
          exact hwf.2.1 (hee.1 ▸ h2)
  | dir name listable children rest ihc ihr =>
      have hrest := ihr hwf.2.2.2
      cases listable with
      | false => simpa [visibleFiles] using hrest
      | true =>
          simp only [visibleFiles, if_true, List.map_append, List.map_map]
          rw [List.nodup_append]
          refine ⟨?_, hrest, ?_⟩
          · have hc := ihc hwf.2.2.1
            have : (List.map (Prod.fst ∘ fun e => (name :: e.1, e.2)) (visibleFiles children))
                = ((visibleFiles children).map Prod.fst).map (fun l => name :: l) := by
              simp [List.map_map, Function.comp_def]
            rw [this]
            exact hc.map (fun a b h => by simpa using h)
          · intro l h1 h2
            rw [List.mem_map] at h1 h2
            obtain ⟨e1, _, he1⟩ := h1
            obtain ⟨e2, he2, hee2⟩ := h2
            obtain ⟨n, t, hnt, hmem⟩ := visibleFiles_head rest e2 he2
            simp only [Function.comp_apply] at he1
            rw [← he1, hnt] at hee2
            simp only [List.cons.injEq] at hee2
            exact hwf.2.1 (hee2.1 ▸ hmem)

theorem joinSep_injective (xs ys : List Bytes) (hx : xs ≠ []) (hy : ys ≠ [])
    (hxn : ∀ n ∈ xs, NormalName n) (hyn : ∀ n ∈ ys, NormalName n)
    (h : joinSep xs = joinSep ys) : xs = ys := by
  rw [← splitSep_joinSep xs hx (fun n hn => (hxn n hn).2.1),
    ← splitSep_joinSep ys hy (fun n hn => (hyn n hn).2.1), h]

theorem visibleFiles_keys_nodup (es : Entries) (hwf : WellFormed es) :
    ((visibleFiles es).map (fun e => joinSep e.1)).Nodup := by
  have h1 := visibleFiles_nodup es hwf
  have h2 := visibleFiles_normal es hwf
  have : (visibleFiles es).map (fun e => joinSep e.1)
      = ((visibleFiles es).map Prod.fst).map joinSep := by
    simp [List.map_map, Function.comp_def]
  rw [this]
  apply List.Nodup.map_on _ h1
  intro x hx y hy hxy
  rw [List.mem_map] at hx hy
  obtain ⟨e1, he1, rfl⟩ := hx
  obtain ⟨e2, he2, rfl⟩ := hy
  exact joinSep_injective _ _ (h2 e1 he1).1 (h2 e2 he2).1 (h2 e1 he1).2 (h2 e2 he2).2 hxy

theorem dirItems_of_dir (fs : FileSys) (d : Bytes) (listable : Bool) (children : Entries)
    (hd : d ≠ []) (hroot : fs.lstat d = some (.dir listable children))
    (hwf : WellFormed children) :
    dirItems fs d
      = (if listable then visibleFiles children else []).map (fun e => (joinSep e.1, e.2)) := by
  unfold dirItems
  rw [if_neg hd, hroot]
  cases listable with
  | false => simp [rootFiles]
  | true =>
      have := walkFiles_rel d hd children [] hwf (by simp)
      simp only [List.foldl_nil, List.nil_append] at this
      simp only [rootFiles, if_true, this]

theorem mapGet_of_mem {α : Type} (m : GoMap α) (k : Bytes) (v : α) (hn : (keys m).Nodup)
    (h : (k, v) ∈ m) : mapGet m k = some v := by
  induction m with
  | nil => simp at h
  | cons e rest ih =>
      obtain ⟨a, b⟩ := e
      simp only [keys, List.map_cons, List.nodup_cons] at hn
      simp only [List.mem_cons, Prod.mk.injEq] at h
      rcases h with h | h
      · simp [mapGet, h.1, h.2]
      · have hak : a ≠ k := by
          intro hak
          apply hn.1
          rw [hak]
          exact List.mem_map.mpr ⟨(k, v), h, rfl⟩
        simp only [mapGet, hak, if_false]
        exact ih hn.2 h

theorem filter_key_eq {α : Type} (m : GoMap α) (k : Bytes) (v : α) (hn : (keys m).Nodup)
    (h : mapGet m k = some v) : m.filter (fun e => decide (e.1 = k)) = [(k, v)] := by
  induction m with
  | nil => simp [mapGet] at h
  | cons e rest ih =>
      obtain ⟨a, b⟩ := e
      simp only [keys, List.map_cons, List.nodup_cons] at hn
      by_cases hak : a = k
      · subst hak
        simp only [mapGet, if_true, Option.some.injEq] at h
        subst h
        have hnone : ∀ e ∈ rest, ¬ e.1 = a := by
          intro e he hea
          apply hn.1
          rw [← hea]
          exact List.mem_map.mpr ⟨e, he, rfl⟩
        rw [List.filter_cons_of_pos (by simp)]
        congr 1
        rw [List.filter_eq_nil_iff]
        intro e he
        simpa using hnone e he
      · simp only [mapGet, hak, if_false] at h
        rw [List.filter_cons_of_neg (by simpa using hak)]
        exact ih hn.2 h

theorem collect_of_dir (fs : FileSys) (fl : Flate) (d : Bytes) (listable : Bool)
    (children : Entries) (hd : d ≠ []) (hroot : fs.lstat d = some (.dir listable children))
    (hwf : WellFormed children) :
    setAll ([] : GoMap Bytes) ((dirItems fs d).map (fun e => (e.1, zlibCompress fl e.2)))
      = (if listable then visibleFiles children else []).map
          (fun e => (joinSep e.1, zlibCompress fl e.2)) := by
  rw [dirItems_of_dir fs d listable children hd hroot hwf, List.map_map]
  have hnd : ((if listable then visibleFiles children else []).map
      (fun e => joinSep e.1)).Nodup := by
    cases listable with
    | false => simp
    | true => simpa using visibleFiles_keys_nodup children hwf
  rw [setAll_of_fresh _ [] (by simpa [keys, List.map_map, Function.comp_def] using hnd)]
  simp [Function.comp_def]

/-- C1: for every directory root whose tree is well formed, `compressAndEncodeFiles`
called with that root and no explicit paths builds a file map whose entries are
exactly the readable non-directory entries under the root: one entry per such
file, its key the root-relative path (the names from the root joined by the
separator) and its value base64(zlib(content)); the keys are pairwise distinct,
and a root that cannot be listed gives the empty map. -/
theorem walk_builds_file_map (fs : FileSys) (fl : Flate) (d : Bytes) (listable : Bool)
    (children : Entries) (hd : d ≠ []) (hroot : fs.lstat d = some (.dir listable children))
    (hwf : WellFormed children) :
    fileMap fs fl d []
        = .ok ((if listable then visibleFiles children else []).map
            (fun e => (joinSep e.1, stdEncode (zlibCompress fl e.2)))) ∧
      ((if listable then visibleFiles children else []).map (fun e => joinSep e.1)).Nodup := by
  constructor
  · rw [fileMap_eq]
    have : sourceItems fs d [] = dirItems fs d := by simp [sourceItems, explicitItems]
    rw [this, collect_of_dir fs fl d listable children hd hroot hwf, List.map_map]
    rfl
  · cases listable with
    | false => simp
    | true => simpa using visibleFiles_keys_nodup children hwf

theorem exampleTree_wellFormed : WellFormed exampleTree := by
  simp only [exampleTree, WellFormed, NormalName, entryNames]
  decide

theorem walk_builds_file_map_witness :
    exampleFS.lstat (str "data") = some (.dir true exampleTree) ∧
      fileMap exampleFS storedFlate (str "data") []
        = .ok [(str "a.txt", stdEncode (zlibCompress storedFlate (str "hello"))),
            (str "sub/b.txt", stdEncode (zlibCompress storedFlate (str "world")))] :=
  ⟨rfl, (walk_builds_file_map exampleFS storedFlate (str "data") true exampleTree (by decide) rfl
    exampleTree_wellFormed).1⟩

/-- C3: when an identifier arises twice the entry processed later wins, directory
entries being processed before explicit paths and explicit paths in the order
given: for a usable explicit path `p` with no usable path of the same basename
after it in the list, the file map has exactly one entry for the basename of
`p` and its value is base64(zlib(content of `p`)), whatever the directory and
the explicit paths before `p` hold under that identifier; in particular when
the directory holds a readable file with that relative path, whose value is
the entry of that key in the run without explicit paths. -/
theorem later_entry_overwrites (fs : FileSys) (fl : Flate) (d p c : Bytes)
    (pre post : List Bytes) (hstat : fs.stat p = some false) (hread : fs.readFile p = some c)
    (hpost : ∀ q ∈ post, Base q = Base p → explicitContent fs q = none) :
    (∃ m, fileMap fs fl d (pre ++ p :: post) = .ok m ∧
        m.filter (fun e => decide (e.1 = Base p)) = [(Base p, stdEncode (zlibCompress fl c))]) ∧
      ∀ (children : Entries) (comps : List Bytes) (c0 : Bytes), d ≠ [] →
        fs.lstat d = some (.dir true children) → WellFormed children →
        (comps, c0) ∈ visibleFiles children → joinSep comps = Base p →
        ∃ m0, fileMap fs fl d [] = .ok m0 ∧
          mapGet m0 (Base p) = some (stdEncode (zlibCompress fl c0)) := by
  have hc := explicitContent_of_file fs p c hstat hread
  constructor
  · have hget : mapGet (setAll ([] : GoMap Bytes)
        ((sourceItems fs d (pre ++ p :: post)).map (fun e => (e.1, zlibCompress fl e.2))))
        (Base p) = some (zlibCompress fl c) := by
      have e : (sourceItems fs d (pre ++ p :: post)).map (fun e => (e.1, zlibCompress fl e.2))
          = ((dirItems fs d ++ explicitItems fs pre).map (fun e => (e.1, zlibCompress fl e.2))) ++
            (Base p, zlibCompress fl c) ::
              (explicitItems fs post).map (fun e => (e.1, zlibCompress fl e.2)) := by
        simp [sourceItems, explicitItems_append, explicitItems_cons_keep fs p c post hc]
      rw [e, mapGet_setAll_last]
      have := not_mem_explicit_keys fs (Base p) post hpost
      simpa [List.map_map] using this
    have hnd := keys_collect_nodup fl (sourceItems fs d (pre ++ p :: post))
    refine ⟨_, fileMap_eq fs fl d _, ?_⟩
    apply filter_key_eq
    · simpa [keys, List.map_map, Function.comp_def] using hnd
    · rw [mapGet_map_encode, hget]; rfl
  · intro children comps c0 hd hroot hwf hin hbase
    refine ⟨_, fileMap_eq fs fl d [], ?_⟩
    have : sourceItems fs d [] = dirItems fs d := by simp [sourceItems, explicitItems]
    rw [mapGet_map_encode, this, collect_of_dir fs fl d true children hd hroot hwf]
    have hnd := visibleFiles_keys_nodup children hwf
    rw [← hbase, mapGet_of_mem _ (joinSep comps) (zlibCompress fl c0)
      (by simpa [keys, List.map_map, Function.comp_def] using hnd)
      (List.mem_map.mpr ⟨(comps, c0), by simpa using hin, rfl⟩)]
    rfl

theorem later_entry_overwrites_witness :
    collisionFS.stat (str "other/x.txt") = some false ∧
      (∃ m, fileMap collisionFS storedFlate (str "data") ([] ++ str "other/x.txt" :: []) = .ok m ∧
        m.filter (fun e => decide (e.1 = Base (str "other/x.txt")))
          = [(Base (str "other/x.txt"), stdEncode (zlibCompress storedFlate (str "new")))]) ∧
      ∃ m0, fileMap collisionFS storedFlate (str "data") [] = .ok m0 ∧
        mapGet m0 (Base (str "other/x.txt"))
          = some (stdEncode (zlibCompress storedFlate (str "old"))) :=
  ⟨rfl,
    (later_entry_overwrites collisionFS storedFlate (str "data") (str "other/x.txt") (str "new")
      [] [] rfl rfl (by intro q hq; cases hq)).1,
    (later_entry_overwrites collisionFS storedFlate (str "data") (str "other/x.txt") (str "new")
      [] [] rfl rfl (by intro q hq; cases hq)).2
      (.file (str "x.txt") (some (str "old")) .nil) [str "x.txt"] (str "old") (by decide) rfl
      (by simp only [WellFormed, NormalName, entryNames]; decide)
      (by simp [visibleFiles]) (by decide)⟩

/-! ## UTF-8 -/

theorem leadSize_cases (s0 : Nat) :
    (s0 < 0xE0 ∧ leadSize s0 = 2) ∨ (0xE0 ≤ s0 ∧ s0 < 0xF0 ∧ leadSize s0 = 3) ∨
      (0xF0 ≤ s0 ∧ leadSize s0 = 4) := by
  unfold leadSize
  by_cases h1 : s0 < 0xE0
  · left; simp [h1]
  · by_cases h2 : s0 < 0xF0
    · right; left; simp [h1, h2]; omega
    · right; right; simp [h1, h2]; omega

theorem accept_range (s0 s1 : Nat) :
    ¬ (s1 < acceptLo s0 ∨ acceptHi s0 < s1) ↔
      (0x80 ≤ s1 ∧ s1 ≤ 0xBF ∧ (s0 = 0xE0 → 0xA0 ≤ s1) ∧ (s0 = 0xF0 → 0x90 ≤ s1) ∧
        (s0 = 0xED → s1 ≤ 0x9F) ∧ (s0 = 0xF4 → s1 ≤ 0x8F)) := by
  unfold acceptLo acceptHi
  split_ifs <;> omega

/-- A two-byte sequence decodes to its rune, whatever follows. -/
theorem decode_two (s0 s1 : Nat) (x : Bytes) (a1 : 0xC2 ≤ s0) (a2 : s0 < 0xE0)
    (a3 : 0x80 ≤ s1) (a4 : s1 ≤ 0xBF) :
    DecodeRuneInString (s0 :: s1 :: x) = ((s0 &&& 0x1F) <<< 6 ||| (s1 &&& 0x3F), 2) := by
  have hn : ¬ s0 < 0x80 := by omega
  have h1 : ¬ (s0 < 0xC2 ∨ 0xF4 < s0) := by omega
  have hl : leadSize s0 = 2 := by
    rcases leadSize_cases s0 with h | h | h <;> omega
  have h2 : ¬ ((s1 :: x).length + 1 < leadSize s0) := by
    rw [hl, List.length_cons]; omega
  have h3 : ¬ (s1 < acceptLo s0 ∨ acceptHi s0 < s1) :=
    (accept_range s0 s1).mpr ⟨a3, a4, by omega, by omega, by omega, by omega⟩
  have hl2 : leadSize s0 ≤ 2 := by omega
  simp only [DecodeRuneInString, hn, h1, h2, h3, hl2, if_false, if_true]

/-- A three-byte sequence decodes to its rune, whatever follows. -/
theorem decode_three (s0 s1 s2 : Nat) (x : Bytes) (a1 : 0xE0 ≤ s0) (a2 : s0 < 0xF0)
    (a3 : 0x80 ≤ s1) (a4 : s1 ≤ 0xBF) (a5 : s0 = 0xE0 → 0xA0 ≤ s1) (a6 : s0 = 0xED → s1 ≤ 0x9F)
    (a7 : 0x80 ≤ s2) (a8 : s2 ≤ 0xBF) :
    DecodeRuneInString (s0 :: s1 :: s2 :: x)
      = ((s0 &&& 0x0F) <<< 12 ||| (s1 &&& 0x3F) <<< 6 ||| (s2 &&& 0x3F), 3) := by
  have hn : ¬ s0 < 0x80 := by omega
  have h1 : ¬ (s0 < 0xC2 ∨ 0xF4 < s0) := by omega
  have hl : leadSize s0 = 3 := by
    rcases leadSize_cases s0 with h | h | h <;> omega
  have h2 : ¬ ((s1 :: s2 :: x).length + 1 < leadSize s0) := by
    rw [hl]; simp only [List.length_cons]; omega
  have h3 : ¬ (s1 < acceptLo s0 ∨ acceptHi s0 < s1) :=
    (accept_range s0 s1).mpr ⟨a3, a4, a5, by omega, a6, by omega⟩
  have hl2 : ¬ leadSize s0 ≤ 2 := by omega
  have hl3 : leadSize s0 ≤ 3 := by omega
  have h5 : ¬ (s2 < 0x80 ∨ 0xBF < s2) := by omega
  simp only [DecodeRuneInString, hn, h1, h2, h3, hl2, hl3, h5, if_false, if_true]

/-- A four-byte sequence decodes to its rune, whatever follows. -/
theorem decode_four (s0 s1 s2 s3 : Nat) (x : Bytes) (a1 : 0xF0 ≤ s0) (a2 : s0 ≤ 0xF4)
    (a3 : 0x80 ≤ s1) (a4 : s1 ≤ 0xBF) (a5 : s0 = 0xF0 → 0x90 ≤ s1) (a6 : s0 = 0xF4 → s1 ≤ 0x8F)
    (a7 : 0x80 ≤ s2) (a8 : s2 ≤ 0xBF) (a9 : 0x80 ≤ s3) (a10 : s3 ≤ 0xBF) :
    DecodeRuneInString (s0 :: s1 :: s2 :: s3 :: x)
      = ((s0 &&& 0x07) <<< 18 ||| (s1 &&& 0x3F) <<< 12 ||| (s2 &&& 0x3F) <<< 6 |||
          (s3 &&& 0x3F), 4) := by
  have hn : ¬ s0 < 0x80 := by omega
  have h1 : ¬ (s0 < 0xC2 ∨ 0xF4 < s0) := by omega
  have hl : leadSize s0 = 4 := by
    rcases leadSize_cases s0 with h | h | h <;> omega
  have h2 : ¬ ((s1 :: s2 :: s3 :: x).length + 1 < leadSize s0) := by
    rw [hl]; simp only [List.length_cons]; omega
  have h3 : ¬ (s1 < acceptLo s0 ∨ acceptHi s0 < s1) :=
    (accept_range s0 s1).mpr ⟨a3, a4, by omega, a5, by omega, a6⟩
  have hl2 : ¬ leadSize s0 ≤ 2 := by omega
  have hl3 : ¬ leadSize s0 ≤ 3 := by omega
  have h5 : ¬ (s2 < 0x80 ∨ 0xBF < s2) := by omega
  have h7 : ¬ (s3 < 0x80 ∨ 0xBF < s3) := by omega
  simp only [DecodeRuneInString, hn, h1, h2, h3, hl2, hl3, h5, h7, if_false, if_true]

/-- The outcomes of decoding at a byte that is not ASCII: failure, or a sequence of
2, 3 or 4 bytes that lie in the ranges UTF-8 allows. -/
theorem decode_cases (s0 : Nat) (t : Bytes) (h0 : 0x80 ≤ s0) :
    DecodeRuneInString (s0 :: t) = (RuneError, 1) ∨
      (∃ s1 t1, t = s1 :: t1 ∧ 0xC2 ≤ s0 ∧ s0 < 0xE0 ∧ 0x80 ≤ s1 ∧ s1 ≤ 0xBF) ∨
      (∃ s1 s2 t2, t = s1 :: s2 :: t2 ∧ 0xE0 ≤ s0 ∧ s0 < 0xF0 ∧ 0x80 ≤ s1 ∧ s1 ≤ 0xBF ∧
        (s0 = 0xE0 → 0xA0 ≤ s1) ∧ (s0 = 0xED → s1 ≤ 0x9F) ∧ 0x80 ≤ s2 ∧ s2 ≤ 0xBF) ∨
      (∃ s1 s2 s3 t3, t = s1 :: s2 :: s3 :: t3 ∧ 0xF0 ≤ s0 ∧ s0 ≤ 0xF4 ∧ 0x80 ≤ s1 ∧ s1 ≤ 0xBF ∧
        (s0 = 0xF0 → 0x90 ≤ s1) ∧ (s0 = 0xF4 → s1 ≤ 0x8F) ∧ 0x80 ≤ s2 ∧ s2 ≤ 0xBF ∧
        0x80 ≤ s3 ∧ s3 ≤ 0xBF) := by
  have hn : ¬ s0 < 0x80 := by omega
  by_cases h1 : s0 < 0xC2 ∨ 0xF4 < s0
  · left
    simp only [DecodeRuneInString, hn, h1, if_false, if_true]
  · cases t with
    | nil => left; simp only [DecodeRuneInString, hn, h1, if_false]
    | cons s1 t1 =>
        by_cases h2 : (s1 :: t1).length + 1 < leadSize s0
        · left; simp only [DecodeRuneInString, hn, h1, h2, if_false, if_true]
        · by_cases h3 : s1 < acceptLo s0 ∨ acceptHi s0 < s1
          · left; simp only [DecodeRuneInString, hn, h1, h2, h3, if_false, if_true]
          · obtain ⟨b1, b2, b3, b4, b5, b6⟩ := (accept_range s0 s1).mp h3
            rcases leadSize_cases s0 with ⟨hs, hl⟩ | ⟨hs1, hs2, hl⟩ | ⟨hs, hl⟩
            · right; left
              exact ⟨s1, t1, rfl, by omega, hs, b1, b2⟩
            · have hl2 : ¬ leadSize s0 ≤ 2 := by omega
              cases t1 with
              | nil =>
                  left
                  simp only [DecodeRuneInString, hn, h1, h2, h3, hl2, if_false]
              | cons s2 t2 =>
                  by_cases h5 : s2 < 0x80 ∨ 0xBF < s2
                  · left
                    simp only [DecodeRuneInString, hn, h1, h2, h3, hl2, h5, if_false, if_true]
                  · right; right; left
                    exact ⟨s1, s2, t2, rfl, hs1, hs2, b1, b2, b3, b5, by omega, by omega⟩
            · have hl2 : ¬ leadSize s0 ≤ 2 := by omega
              have hl3 : ¬ leadSize s0 ≤ 3 := by omega
              cases t1 with
              | nil =>
                  left
                  simp only [DecodeRuneInString, hn, h1, h2, h3, hl2, if_false]
              | cons s2 t2 =>
                  by_cases h5 : s2 < 0x80 ∨ 0xBF < s2
                  · left
                    simp only [DecodeRuneInString, hn, h1, h2, h3, hl2, h5, if_false, if_true]
                  · cases t2 with
                    | nil =>
                        left
                        simp only [DecodeRuneInString, hn, h1, h2, h3, hl2, h5, hl3, if_false]
                    | cons s3 t3 =>
                        by_cases h7 : s3 < 0x80 ∨ 0xBF < s3
                        · left
                          simp only [DecodeRuneInString, hn, h1, h2, h3, hl2, h5, hl3, h7,
                            if_false, if_true]
                        · right; right; right
                          exact ⟨s1, s2, s3, t3, rfl, hs, by omega, b1, b2, b4, b6, by omega,
                            by omega, by omega, by omega⟩

/-- Decoding at a byte that is not ASCII does not look past the next ASCII byte: a
rune decoded at the rest of an input is the rune decoded within the part that
ends before that byte (such as the closing quote of a literal). -/
theorem decode_before_ascii (s0 : Nat) (t : Bytes) (q : Nat) (x : Bytes) (h0 : 0x80 ≤ s0)
    (hq : q < 0x80) :
    DecodeRuneInString (s0 :: (t ++ q :: x)) = DecodeRuneInString (s0 :: t) := by
  rcases decode_cases s0 t h0 with h | ⟨s1, t1, ht, a1, a2, a3, a4⟩ |
      ⟨s1, s2, t2, ht, a1, a2, a3, a4, a5, a6, a7, a8⟩ |
      ⟨s1, s2, s3, t3, ht, a1, a2, a3, a4, a5, a6, a7, a8, a9, a10⟩
  · rw [h]
    rcases decode_cases s0 (t ++ q :: x) h0 with h2 | ⟨s1, t1, ht, a1, a2, a3, a4⟩ |
        ⟨s1, s2, t2, ht, a1, a2, a3, a4, a5, a6, a7, a8⟩ |
        ⟨s1, s2, s3, t3, ht, a1, a2, a3, a4, a5, a6, a7, a8, a9, a10⟩
    · exact h2
    · rcases t with _ | ⟨b1, t⟩
      · simp only [List.nil_append, List.cons.injEq] at ht; omega
      · simp only [List.cons_append, List.cons.injEq] at ht
        rw [ht.1, decode_two s0 s1 t a1 a2 a3 a4] at h
        simp at h
    · rcases t with _ | ⟨b1, _ | ⟨b2, t⟩⟩
      · simp only [List.nil_append, List.cons.injEq] at ht; omega
      · simp only [List.cons_append, List.nil_append, List.cons.injEq] at ht; omega
      · simp only [List.cons_append, List.cons.injEq] at ht
        rw [ht.1, ht.2.1, decode_three s0 s1 s2 t a1 a2 a3 a4 a5 a6 a7 a8] at h
        simp at h
    · rcases t with _ | ⟨b1, _ | ⟨b2, _ | ⟨b3, t⟩⟩⟩
      · simp only [List.nil_append, List.cons.injEq] at ht; omega
      · simp only [List.cons_append, List.nil_append, List.cons.injEq] at ht; omega
      · simp only [List.cons_append, List.nil_append, List.cons.injEq] at ht; omega
      · simp only [List.cons_append, List.cons.injEq] at ht
        rw [ht.1, ht.2.1, ht.2.2.1,
          decode_four s0 s1 s2 s3 t a1 a2 a3 a4 a5 a6 a7 a8 a9 a10] at h
        simp at h
  · subst ht
    rw [decode_two s0 s1 t1 a1 a2 a3 a4]
    exact decode_two s0 s1 (t1 ++ q :: x) a1 a2 a3 a4
  · subst ht
    rw [decode_three s0 s1 s2 t2 a1 a2 a3 a4 a5 a6 a7 a8]
    exact decode_three s0 s1 s2 (t2 ++ q :: x) a1 a2 a3 a4 a5 a6 a7 a8
  · subst ht
    rw [decode_four s0 s1 s2 s3 t3 a1 a2 a3 a4 a5 a6 a7 a8 a9 a10]
    exact decode_four s0 s1 s2 s3 (t3 ++ q :: x) a1 a2 a3 a4 a5 a6 a7 a8 a9 a10

/-! ## JSON strings: reading back what `appendString` writes -/

end CustomEncoder
